import Mathlib

/-! Datadog sinks of veneur: metric finalization, chunked flush, span ring buffer.

A shallow embedding of `sinks/datadog/datadog.go`.

* Go `int`/`int64` values are `Int`; slice lengths are far below the machine
  range, so the chunk arithmetic is exact.  Integer division truncates toward
  zero and faults on a zero divisor, as in Go.
* `float64` is an abstract carrier `F` with the three operations the sink uses
  (division, conversion from `int64`, conversion to `int32`).
* A run that can fault (divide by zero, slice out of range, nil dereference)
  records the fault explicitly instead of returning.
-/

set_option autoImplicit false

namespace Datadog

/-! ## Go runtime primitives -/

/-- Runtime faults that abort a Go function with a run-time panic. -/
inductive Fault where
  | divideByZero
  | sliceOutOfRange
  | nilDereference
  deriving DecidableEq, Repr

deriving instance DecidableEq for Except

/-- Go integer division `a / b`: truncated toward zero, a run-time panic when `b = 0`. -/
def goDiv (a b : Int) : Except Fault Int :=
  if b = 0 then .error .divideByZero else .ok (Int.tdiv a b)

/-- Go slice expression `s[lo:]`; panics unless `0 ≤ lo ≤ len(s)`. -/
def sliceFrom {α : Type} (s : List α) (lo : Int) : Except Fault (List α) :=
  if lo < 0 ∨ (s.length : Int) < lo then .error .sliceOutOfRange else .ok (s.drop lo.toNat)

/-- Go slice expression `s[:hi]`.  Go permits `hi` up to `cap(s)`; here every `hi`
beyond `len(s)` is a fault, which over-approximates the faults of the program
(an `hi` within `len(s)` yields the same elements in both readings). -/
def sliceTo {α : Type} (s : List α) (hi : Int) : Except Fault (List α) :=
  if hi < 0 ∨ (s.length : Int) < hi then .error .sliceOutOfRange else .ok (s.take hi.toNat)

/-- Go `strings.HasPrefix(s, prefix)`. -/
def HasPrefix (s pre : String) : Bool :=
  pre.toList.isPrefixOf s.toList

/-- Go string slice `s[n:]`, used only after `HasPrefix` on an ASCII prefix of `n` bytes. -/
def strFrom (s : String) (n : Nat) : String :=
  String.mk (s.toList.drop n)

/-! ## Metric sink: data model -/

/-- The operations on `float64` used by the metric sink, over an abstract carrier. -/
structure Float64Ops (F : Type) where
  /-- The quotient `x / y` of two `float64`. -/
  div : F → F → F
  /-- The conversion `float64(n)` of an `int64`. -/
  ofInt64 : Int → F
  /-- The conversion `int32(x)` of a `float64`. -/
  toInt32 : F → Int

/-- Modelled from the spec: `samplers.MetricType`, whose declaration is outside the
sources; the spec gives the kinds Counter, Gauge and other (unsupported). -/
inductive MetricType where
  | CounterMetric
  | GaugeMetric
  | unsupported
  deriving DecidableEq, Repr

/-- Modelled from the spec: `samplers.InterMetric`, whose declaration is outside the
sources; the fields are those `finalizeMetrics` reads. -/
structure InterMetric (F : Type) where
  Name : String
  Timestamp : Int
  Value : F
  Tags : List String
  /-- The field `Type` of the source (a reserved word here). -/
  Typ : MetricType

/-- The record `DDMetric`; `Value` is the single point `[timestamp, value]`. -/
structure DDMetric (F : Type) where
  Name : String
  Value : F × F
  Tags : List String
  MetricType : String
  Hostname : String
  DeviceName : String
  Interval : Int

/-- The fields of `DatadogMetricSink` that finalization and chunking read. -/
structure DatadogMetricSink (F : Type) where
  APIKey : String
  DDHostname : String
  hostname : String
  flushMaxPerBody : Int
  tags : List String
  interval : F

/-- The collaborators of the metric sink that live outside the sources: the
`float64` operations and the acceptance predicate `sinks.IsAcceptableMetric`. -/
structure MetricEnv (F : Type) where
  ops : Float64Ops F
  IsAcceptableMetric : InterMetric F → DatadogMetricSink F → Bool

/-! ## Metric sink: `finalizeMetrics` -/

/-- One iteration of the magic-tag loop of `finalizeMetrics` (the body of
`for _, tag := range m.Tags`). -/
def magicTagStep {F : Type} (ddMetric : DDMetric F) (tag : String) : DDMetric F :=
  if HasPrefix tag "host:" then
    { ddMetric with Hostname := strFrom tag 5 }
  else if HasPrefix tag "device:" then
    { ddMetric with DeviceName := strFrom tag 7 }
  else
    { ddMetric with Tags := ddMetric.Tags ++ [tag] }

/-- The `switch m.Type` of `finalizeMetrics`: the metric type string and the value,
or `none` for the `default` branch, which logs and continues with the next sample. -/
def typeSwitch {F : Type} (env : MetricEnv F) (dd : DatadogMetricSink F)
    (m : InterMetric F) : Option (String × F) :=
  match m.Typ with
  | .CounterMetric => some ("rate", env.ops.div m.Value dd.interval)
  | .GaugeMetric => some ("gauge", m.Value)
  | .unsupported => none

/-- The body of the sample loop of `finalizeMetrics`: the batch built so far, extended
by the record of `m` unless the iteration ends in `continue`. -/
def finalizeStep {F : Type} (env : MetricEnv F) (dd : DatadogMetricSink F)
    (ddMetrics : List (DDMetric F)) (m : InterMetric F) : List (DDMetric F) :=
  if !env.IsAcceptableMetric m dd then ddMetrics
  else
    let tags := dd.tags
    match typeSwitch env dd m with
    | none => ddMetrics
    | some (metricType, value) =>
      let ddMetric : DDMetric F :=
        { Name := m.Name
          Value := (env.ops.ofInt64 m.Timestamp, value)
          Tags := tags
          MetricType := metricType
          Hostname := ""
          DeviceName := ""
          Interval := env.ops.toInt32 dd.interval }
      let ddMetric := m.Tags.foldl magicTagStep ddMetric
      let ddMetric :=
        if ddMetric.Hostname = "" then { ddMetric with Hostname := dd.hostname } else ddMetric
      ddMetrics ++ [ddMetric]

/-- The method `DatadogMetricSink.finalizeMetrics`. -/
def DatadogMetricSink.finalizeMetrics {F : Type} (env : MetricEnv F) (dd : DatadogMetricSink F)
    (metrics : List (InterMetric F)) : List (DDMetric F) :=
  metrics.foldl (finalizeStep env dd) []

/-! ## Metric sink: chunked `Flush` -/

/-- What a run of `Flush` did: the chunks handed to `flushPart`, in the order of the
loop index, and the fault that aborted the run, if any. -/
structure FlushRun (α : Type) where
  dispatched : List (List α)
  fault : Option Fault

/-- The statement `workers := ((len(ddmetrics) - 1) / dd.flushMaxPerBody) + 1`,
with `n = len(ddmetrics)`. -/
def workersOf (n flushMaxPerBody : Int) : Except Fault Int :=
  match goDiv (n - 1) flushMaxPerBody with
  | .error e => .error e
  | .ok q => .ok (q + 1)

/-- The statement `chunkSize := ((len(ddmetrics) - 1) / workers) + 1`. -/
def chunkSizeOf (n workers : Int) : Except Fault Int :=
  match goDiv (n - 1) workers with
  | .error e => .error e
  | .ok q => .ok (q + 1)

/-- The chunk of loop index `i`: `ddmetrics[i*chunkSize:]`, trimmed to `chunkSize`
elements unless `i` is the last index. -/
def chunkAt {α : Type} (ddmetrics : List α) (workers chunkSize i : Int) :
    Except Fault (List α) :=
  match sliceFrom ddmetrics (i * chunkSize) with
  | .error e => .error e
  | .ok chunk => if i < workers - 1 then sliceTo chunk chunkSize else .ok chunk

/-- The loop `for i := 0; i < workers; i++` of `Flush`, entered at index `i`; the
first argument bounds the iterations still to run, and `workers - i` of them suffice. -/
def flushLoop {α : Type} (ddmetrics : List α) (workers chunkSize : Int) :
    Nat → Int → FlushRun α
  | 0, _ => ⟨[], none⟩
  | k + 1, i =>
    if i < workers then
      match chunkAt ddmetrics workers chunkSize i with
      | .error e => ⟨[], some e⟩
      | .ok chunk =>
        let rest := flushLoop ddmetrics workers chunkSize k (i + 1)
        ⟨chunk :: rest.dispatched, rest.fault⟩
    else ⟨[], none⟩

/-- Lines 92-106 of `Flush`: worker count, chunk size and the dispatch loop over the
finalized batch `ddmetrics`. -/
def flushChunks {α : Type} (ddmetrics : List α) (flushMaxPerBody : Int) : FlushRun α :=
  match workersOf ddmetrics.length flushMaxPerBody with
  | .error e => ⟨[], some e⟩
  | .ok workers =>
    match chunkSizeOf ddmetrics.length workers with
    | .error e => ⟨[], some e⟩
    | .ok chunkSize => flushLoop ddmetrics workers chunkSize workers.toNat 0

/-- The method `DatadogMetricSink.Flush`: finalize the samples, then dispatch the
finalized batch in chunks. -/
def DatadogMetricSink.Flush {F : Type} (env : MetricEnv F) (dd : DatadogMetricSink F)
    (interMetrics : List (InterMetric F)) : FlushRun (DDMetric F) :=
  flushChunks (dd.finalizeMetrics env interMetrics) dd.flushMaxPerBody

/-! ## Span sink: data model -/

/-- A Go `map[string]string` as an association list with distinct keys. -/
abbrev TagMap := List (String × String)

/-- The lookup `m[k]` with presence flag. -/
def TagMap.get (m : TagMap) (k : String) : Option String :=
  match m with
  | [] => none
  | (k', v) :: rest => if k' = k then some v else TagMap.get rest k

/-- The assignment `m[k] = v`: overwrites the entry of `k`, or adds one. -/
def TagMap.set (m : TagMap) (k v : String) : TagMap :=
  match m with
  | [] => [(k, v)]
  | (k', v') :: rest => if k' = k then (k, v) :: rest else (k', v') :: TagMap.set rest k v

/-- The statement `delete(m, k)`. -/
def TagMap.delete (m : TagMap) (k : String) : TagMap :=
  m.filter (fun kv => kv.1 ≠ k)

/-- Modelled from the spec: `ssf.SSFSpan`, whose declaration is outside the sources;
the fields are those the sink reads.  `Tags = none` is the nil map. -/
structure SSFSpan where
  TraceId : Int
  Id : Int
  ParentId : Int
  StartTimestamp : Int
  EndTimestamp : Int
  Error : Bool
  Service : String
  Name : String
  Tags : Option TagMap
  deriving DecidableEq, Repr

/-- The record `DatadogTraceSpan` (`Metrics` is never assigned by the sink and is
left out; `Typ` is the field `Type`). -/
structure DatadogTraceSpan where
  Duration : Int
  Error : Int
  Meta : TagMap
  Name : String
  ParentID : Int
  Resource : String
  Service : String
  SpanID : Int
  Start : Int
  TraceID : Int
  Typ : String
  deriving DecidableEq, Repr

/-- A sample added to the self-reported `ssf.Samples`; `Value` is the count the
sample carries (`none` for a timing, whose value is wall-clock time). -/
structure SSFSample where
  Name : String
  Value : Option Int
  Tags : TagMap
  deriving DecidableEq, Repr

/-- Go's `container/ring` as the sink uses it: the `Value` of every element, listed
in `Next` order from a fixed element, and the index of the element that the
`*Ring` pointer designates.  A `Value` is `nil` or a span pointer stored by `Ingest`. -/
structure Ring where
  values : List (Option SSFSpan)
  pos : Nat
  deriving DecidableEq, Repr

/-- The function `ring.New(n)`: the nil ring for `n ≤ 0`, else `n` elements with nil values. -/
def Ring.New (n : Int) : Option Ring :=
  if n ≤ 0 then none else some ⟨List.replicate n.toNat none, 0⟩

/-- The method `r.Next()`. -/
def Ring.Next (r : Ring) : Ring :=
  { r with pos := (r.pos + 1) % r.values.length }

/-- The assignment `r.Value = v`. -/
def Ring.setValue (r : Ring) (v : Option SSFSpan) : Ring :=
  { r with values := r.values.set r.pos v }

/-- The method `r.Len()`, defined on the nil ring too. -/
def Ring.Len (r : Option Ring) : Nat :=
  match r with
  | none => 0
  | some r => r.values.length

/-- The values in the order `r.Do` visits them: from the designated element forward,
once around; nothing for the nil ring. -/
def Ring.visit (r : Option Ring) : List (Option SSFSpan) :=
  match r with
  | none => []
  | some r => r.values.drop r.pos ++ r.values.take r.pos

/-- The constant `datadogSpanBufferSize`. -/
def datadogSpanBufferSize : Int := 2 ^ 14

/-- The constant `datadogResourceKey`. -/
def datadogResourceKey : String := "resource"

/-- The constant `datadogSpanType`. -/
def datadogSpanType : String := "web"

/-- The fields of `DatadogSpanSink` that `Ingest` and `Flush` read or write. -/
structure DatadogSpanSink where
  buffer : Option Ring
  bufferSize : Int
  commonTags : TagMap
  traceAddress : String
  deriving DecidableEq, Repr

/-- The collaborators of the span sink that live outside the sources: the validator
`protocol.ValidateTrace` (`none` is the nil error) and two metric-key constants. -/
structure SpanEnv where
  ValidateTrace : SSFSpan → Option String
  MetricKeyTotalSpansFlushed : String
  MetricKeySpanFlushDuration : String

/-- The function `NewDatadogSpanSink`. -/
def NewDatadogSpanSink (address : String) (bufferSize : Int) (commonTags : TagMap) :
    DatadogSpanSink :=
  let bufferSize := if bufferSize = 0 then datadogSpanBufferSize else bufferSize
  { buffer := Ring.New bufferSize
    bufferSize := bufferSize
    commonTags := commonTags
    traceAddress := address }

/-! ## Span sink: `Ingest` -/

/-- The method `DatadogSpanSink.Ingest`: the sink afterwards and the returned error,
or the fault of writing through a nil ring. -/
def DatadogSpanSink.Ingest (env : SpanEnv) (dd : DatadogSpanSink) (span : SSFSpan) :
    Except Fault (DatadogSpanSink × Option String) :=
  match env.ValidateTrace span with
  | some err => .ok (dd, some err)
  | none =>
    match dd.buffer with
    | none => .error .nilDereference
    | some buffer =>
      let buffer := buffer.setValue (some span)
      .ok ({ dd with buffer := some buffer.Next }, none)

/-! ## Span sink: `Flush` -/

/-- The 64-bit two's-complement value of an integer (wraparound of `int64` arithmetic). -/
def wrapInt64 (x : Int) : Int :=
  (x + 2 ^ 63) % 2 ^ 64 - 2 ^ 63

/-- Lines 344-352 of `Flush`: a nil `Tags` map is replaced by an empty one, then every
common tag of the sink is assigned into it. -/
def addCommonTags (commonTags : TagMap) (ssfSpan : SSFSpan) : SSFSpan :=
  let spanTags : TagMap := match ssfSpan.Tags with
    | none => []
    | some m => m
  let spanTags := commonTags.foldl (fun m kv => m.set kv.1 kv.2) spanTags
  { ssfSpan with Tags := some spanTags }

/-- The callback passed to `dd.buffer.Do` in `Flush`, on one ring value `t`, acting on
the reported samples and the collected spans. -/
def drainStep (commonTags : TagMap) (acc : List SSFSample × List SSFSpan)
    (t : Option SSFSpan) : List SSFSample × List SSFSpan :=
  let tooEarly : Int := 1497
  let tooLate : Int := 1497629343000000
  match t with
  | none => acc
  | some ssfSpan =>
    let timeErr : String := ""
    let tags : TagMap := []
    let tags := if ssfSpan.StartTimestamp < tooEarly then tags.set "type" "tooEarly" else tags
    let tags := if ssfSpan.StartTimestamp > tooLate then tags.set "type" "tooLate" else tags
    let samples :=
      if timeErr ≠ "" then
        acc.1 ++ [{ Name := "worker.trace.sink.timestamp_error", Value := some 1, Tags := tags }]
      else acc.1
    (samples, acc.2 ++ [addCommonTags commonTags ssfSpan])

/-- The conversion of one drained span into a `DatadogTraceSpan` (the body of the
loop `for _, span := range ssfSpans` up to the construction of `ddspan`). -/
def toDatadogSpan (span : SSFSpan) : DatadogTraceSpan :=
  let parentID := if span.ParentId ≤ 0 then 0 else span.ParentId
  let spanTags : TagMap := match span.Tags with
    | none => []
    | some m => m
  let tags : TagMap := spanTags.foldl (fun m kv => m.set kv.1 kv.2) []
  let resource := (spanTags.get datadogResourceKey).getD ""
  let resource := if resource = "" then "unknown" else resource
  let tags := tags.delete datadogResourceKey
  let name := if span.Name = "" then "unknown" else span.Name
  let errorCode : Int := if span.Error then 2 else 0
  { TraceID := span.TraceId
    SpanID := span.Id
    ParentID := parentID
    Service := span.Service
    Name := name
    Resource := resource
    Start := span.StartTimestamp
    Duration := wrapInt64 (span.EndTimestamp - span.StartTimestamp)
    Typ := datadogSpanType
    Error := errorCode
    Meta := tags }

/-- The update `serviceCount[service]++`. -/
def bumpCount (serviceCount : List (String × Int)) (service : String) : List (String × Int) :=
  match serviceCount with
  | [] => [(service, 1)]
  | (s, c) :: rest =>
    if s = service then (s, wrapInt64 (c + 1)) :: rest else (s, c) :: bumpCount rest service

/-- The update `traceMap[id] = append(traceMap[id], ddspan)`, the entry being created
empty on first sight of `id`. -/
def appendTrace (traceMap : List (Int × List DatadogTraceSpan)) (id : Int)
    (ddspan : DatadogTraceSpan) : List (Int × List DatadogTraceSpan) :=
  match traceMap with
  | [] => [(id, [ddspan])]
  | (t, group) :: rest =>
    if t = id then (t, group ++ [ddspan]) :: rest else (t, group) :: appendTrace rest id ddspan

/-- The body of the loop `for _, span := range ssfSpans` of `Flush`. -/
def traceStep (acc : List (String × Int) × List (Int × List DatadogTraceSpan))
    (span : SSFSpan) : List (String × Int) × List (Int × List DatadogTraceSpan) :=
  let ddspan := toDatadogSpan span
  (bumpCount acc.1 span.Service, appendTrace acc.2 span.TraceId ddspan)

/-- What a run of the span sink's `Flush` did. -/
structure SpanFlushRun where
  /-- The sink after the run. -/
  sink : DatadogSpanSink
  /-- The spans collected from the ring. -/
  ssfSpans : List SSFSpan
  /-- The trace map, keys in order of first sight (Go leaves the order open). -/
  traceMap : List (Int × List DatadogTraceSpan)
  /-- The two-dimensional array built from the trace map. -/
  finalTraces : List (List DatadogTraceSpan)
  /-- The body of the `PUT /v0.3/traces` request, when one is made. -/
  request : Option (List (List DatadogTraceSpan))
  /-- The samples reported when the run ends. -/
  samples : List SSFSample

/-- The method `DatadogSpanSink.Flush`. -/
def DatadogSpanSink.Flush (env : SpanEnv) (dd : DatadogSpanSink) : SpanFlushRun :=
  let drained := (Ring.visit dd.buffer).foldl (drainStep dd.commonTags) ([], [])
  let samples := drained.1
  let ssfSpans := drained.2
  let dd := { dd with buffer := Ring.New dd.bufferSize }
  let grouped := ssfSpans.foldl traceStep ([], [])
  let serviceCount := grouped.1
  let traceMap := grouped.2
  let finalTraces := traceMap.map (fun kv => kv.2)
  if finalTraces.length ≠ 0 then
    let samples := samples ++ serviceCount.map (fun sc =>
      { Name := env.MetricKeyTotalSpansFlushed, Value := some sc.2,
        Tags := [("sink", "datadog"), ("service", sc.1)] })
    let samples := samples ++
      [{ Name := env.MetricKeySpanFlushDuration, Value := none, Tags := [("sink", "datadog")] }]
    { sink := dd, ssfSpans := ssfSpans, traceMap := traceMap, finalTraces := finalTraces,
      request := some finalTraces, samples := samples }
  else
    { sink := dd, ssfSpans := ssfSpans, traceMap := traceMap, finalTraces := finalTraces,
      request := none, samples := samples }

/-- The sink states a program can reach: a new sink, then any run of `Ingest` and `Flush`. -/
inductive Reachable (env : SpanEnv) : DatadogSpanSink → Prop where
  | new (address : String) (bufferSize : Int) (commonTags : TagMap) :
      Reachable env (NewDatadogSpanSink address bufferSize commonTags)
  | ingest (dd dd' : DatadogSpanSink) (span : SSFSpan) (err : Option String) :
      Reachable env dd → dd.Ingest env span = .ok (dd', err) → Reachable env dd'
  | flush (dd : DatadogSpanSink) : Reachable env dd → Reachable env (dd.Flush env).sink

/-- The sink after ingesting `spans` one after the other; a fault ends the run. -/
def ingestAll (env : SpanEnv) (dd : DatadogSpanSink) (spans : List SSFSpan) :
    Except Fault DatadogSpanSink :=
  match spans with
  | [] => .ok dd
  | span :: rest =>
    match dd.Ingest env span with
    | .error e => .error e
    | .ok (dd', _) => ingestAll env dd' rest

/-! ## Worked inputs -/

/-- Exact rational arithmetic standing in for `float64` in worked examples (the
values used there are exactly representable); `toInt32` truncates toward zero. -/
def ratOps : Float64Ops ℚ :=
  { div := fun x y => x / y
    ofInt64 := fun n => (n : ℚ)
    toInt32 := fun x => Int.tdiv x.num (x.den : Int) }

/-- An environment that accepts every sample. -/
def acceptAll : MetricEnv ℚ :=
  { ops := ratOps, IsAcceptableMetric := fun _ _ => true }

/-- A metric sink with a 60 second interval, one sink tag and the given chunk limit. -/
def sinkWithLimit (flushMaxPerBody : Int) : DatadogMetricSink ℚ :=
  { APIKey := "key", DDHostname := "https://app.datadoghq.com", hostname := "localhost"
    flushMaxPerBody := flushMaxPerBody, tags := ["cluster:a"], interval := 60 }

/-- A gauge sample with the given name. -/
def gaugeSample (name : String) : InterMetric ℚ :=
  { Name := name, Timestamp := 1500000000, Value := 7, Tags := ["env:prod"],
    Typ := MetricType.GaugeMetric }

/-- A batch of three gauge samples. -/
def threeGauges : List (InterMetric ℚ) :=
  [gaugeSample "a", gaugeSample "b", gaugeSample "c"]

/-- A validator for worked examples: a span needs a trace id and a span id. -/
def needIds : SpanEnv :=
  { ValidateTrace := fun span =>
      if span.TraceId = 0 ∨ span.Id = 0 then some "invalid span" else none
    MetricKeyTotalSpansFlushed := "sink.spans_flushed_total"
    MetricKeySpanFlushDuration := "sink.span_flush_total_duration_ns" }

/-- A span of trace 5 with the given span id. -/
def spanWithId (id : Int) : SSFSpan :=
  { TraceId := 5, Id := id, ParentId := 0, StartTimestamp := 1500000000000000,
    EndTimestamp := 1500000000000100, Error := false, Service := "api", Name := "op",
    Tags := none }

/-- Six spans `s1 .. s6`. -/
def sixSpans : List SSFSpan :=
  [spanWithId 1, spanWithId 2, spanWithId 3, spanWithId 4, spanWithId 5, spanWithId 6]

/-- The sink of capacity 4 after ingesting the span `s1`. -/
def sinkAfterOne : DatadogSpanSink :=
  { NewDatadogSpanSink "localhost:8126" 4 [] with
    buffer := some ⟨[some (spanWithId 1), none, none, none], 1⟩ }

/-- A counter sample of value 120. -/
def counterSample : InterMetric ℚ :=
  { Name := "requests", Timestamp := 1500000000, Value := 120, Tags := [],
    Typ := MetricType.CounterMetric }

/-- A gauge sample carrying both magic tags and one plain tag. -/
def magicSample : InterMetric ℚ :=
  { Name := "load", Timestamp := 1500000000, Value := 3,
    Tags := ["host:web-1", "device:eth0", "env:prod"], Typ := MetricType.GaugeMetric }

/-- The test `finalizeMetrics` applies to a sample tag: neither magic prefix. -/
def plainTag (tag : String) : Bool :=
  !HasPrefix tag "host:" && !HasPrefix tag "device:"

/-! ## Definitions used in the statements -/


/-- The chunk of loop index `i` as a total function, for indices whose slices are in range. -/
def chunkOf {α : Type} (ddmetrics : List α) (workers chunkSize i : Nat) : List α :=
  if i + 1 < workers then (ddmetrics.drop (i * chunkSize)).take chunkSize
  else ddmetrics.drop (i * chunkSize)

/-- The state a sink keeps between operations: a nil ring for a non-positive size,
else a ring of `bufferSize` elements with the pointer on one of them. -/
def SinkInv (dd : DatadogSpanSink) : Prop :=
  match dd.buffer with
  | none => dd.bufferSize ≤ 0
  | some r => 0 < dd.bufferSize ∧ r.values.length = dd.bufferSize.toNat ∧
      r.pos < r.values.length

/-- The last tag of a sample that has the given prefix, if there is one. -/
def lastWithPrefix (tags : List String) (pre : String) : Option String :=
  (tags.filter (fun tag => HasPrefix tag pre)).getLast?

/-- A gauge sample whose only tag is the bare prefix `host:`. -/
def bareHostSample : InterMetric ℚ :=
  { Name := "load", Timestamp := 1500000000, Value := 3, Tags := ["host:"],
    Typ := MetricType.GaugeMetric }

/-- A gauge sample with the tags `host:a` and, after it, the bare prefix `host:`. -/
def hostThenBareSample : InterMetric ℚ :=
  { Name := "load", Timestamp := 1500000000, Value := 3, Tags := ["host:a", "host:"],
    Typ := MetricType.GaugeMetric }

/-- A sample of a type the sink does not support. -/
def unsupportedSample : InterMetric ℚ :=
  { Name := "set", Timestamp := 1500000000, Value := 1, Tags := [],
    Typ := MetricType.unsupported }

/-- The samples that yield a record: accepted, and of type Counter or Gauge. -/
def emitsRecord {F : Type} (env : MetricEnv F) (dd : DatadogMetricSink F)
    (m : InterMetric F) : Bool :=
  env.IsAcceptableMetric m dd && decide (m.Typ ≠ MetricType.unsupported)

/-- The group a trace map holds under a trace id, empty when the id is not a key. -/
def groupOf (traceMap : List (Int × List DatadogTraceSpan)) (id : Int) :
    List DatadogTraceSpan :=
  match traceMap with
  | [] => []
  | (t, group) :: rest => if t = id then group else groupOf rest id

/-- A span of the given trace and span id with the given tags, parent and name. -/
def spanOfTrace (traceId id parent : Int) (name : String) (tags : Option TagMap) : SSFSpan :=
  { TraceId := traceId, Id := id, ParentId := parent, StartTimestamp := 1000,
    EndTimestamp := 1100, Error := false, Service := "api", Name := name, Tags := tags }

/-- A sink of capacity 4 with the common tag `env=prod` that ingested three spans, of
trace ids 5, 5 and 9. -/
def sinkWithThree : DatadogSpanSink :=
  { buffer := some
      ⟨[some (spanOfTrace 5 1 (-1) "root" none),
        some (spanOfTrace 5 2 77 "" (some [("env", "dev"), ("peer", "db")])),
        some (spanOfTrace 9 3 0 "get" (some [("resource", "GET /users")])),
        none], 3⟩
    bufferSize := 4
    commonTags := [("env", "prod")]
    traceAddress := "localhost:8126" }

/-- A span whose tags form a Go map: every key occurs once (nil counts as empty). -/
def WellFormedTags (span : SSFSpan) : Prop :=
  ((span.Tags.getD []).map Prod.fst).Nodup

instance : DecidablePred WellFormedTags :=
  fun span => inferInstanceAs (Decidable ((span.Tags.getD []).map Prod.fst).Nodup)

/-- The spans held in the ring of a sink, in the order `Do` visits them. -/
def ringSpans (dd : DatadogSpanSink) : List SSFSpan :=
  (Ring.visit dd.buffer).filterMap id

/-- The name of the sample the drain loop has code to add for a bad start timestamp. -/
def timestampErrorKey : String := "worker.trace.sink.timestamp_error"

/-! ## Tag slices over shared backing arrays -/

/-- A Go slice header: the backing array it points into, its offset there, its length
and its capacity. -/
structure GoSlice where
  arr : Nat
  off : Nat
  len : Nat
  cap : Nat
  deriving DecidableEq, Repr

/-- The backing arrays of the string slices of a program, by identity. -/
abbrev Heap := List (List String)

/-- The backing array of the given identity. -/
def Heap.array (h : Heap) (id : Nat) : List String :=
  h.getD id []

/-- The elements a slice shows: `len` elements of its backing array from `off` on. -/
def Heap.read (h : Heap) (s : GoSlice) : List String :=
  ((h.array s.arr).drop s.off).take s.len

/-- The call `make([]string, n)`: a new backing array of `n` empty strings. -/
def Heap.make (h : Heap) (n : Nat) : Heap × GoSlice :=
  (h ++ [List.replicate n ""], ⟨h.length, 0, n, n⟩)

/-- The call `copy(dst, src)`: the first `min(len(dst), len(src))` elements of `src`
are written into the backing array of `dst`. -/
def Heap.copy (h : Heap) (dst src : GoSlice) : Heap :=
  let vals := (h.read src).take dst.len
  let a := h.array dst.arr
  h.set dst.arr (a.take dst.off ++ vals ++ a.drop (dst.off + vals.length))

/-- The call `append(s, x)`: with spare capacity the element is written into the
backing array of `s`, behind its last element; without, a new backing array is
allocated (`spare` gives the extra capacity the runtime chooses) and `s` copied. -/
def Heap.append (spare : Nat → Nat) (h : Heap) (s : GoSlice) (x : String) : Heap × GoSlice :=
  if s.len < s.cap then
    (h.set s.arr ((h.array s.arr).set (s.off + s.len) x), { s with len := s.len + 1 })
  else
    (h ++ [h.read s ++ [x] ++ List.replicate (spare s.len) ""],
      ⟨h.length, 0, s.len + 1, s.len + 1 + spare s.len⟩)

/-- A slice header that points into an existing backing array, within its bounds. -/
def GoSlice.ValidIn (s : GoSlice) (h : Heap) : Prop :=
  s.arr < h.length ∧ s.off + s.cap ≤ (h.array s.arr).length ∧ s.len ≤ s.cap

/-- One iteration of the magic-tag loop of `finalizeMetrics`, on the heap and the slice
`ddMetric.Tags` (the host and device fields are in `magicTagStep`). -/
def magicTagStepHeap (spare : Nat → Nat) (st : Heap × GoSlice) (tag : String) :
    Heap × GoSlice :=
  if HasPrefix tag "host:" then st
  else if HasPrefix tag "device:" then st
  else Heap.append spare st.1 st.2 tag

/-- The body of the sample loop of `finalizeMetrics`, on the heap and the `Tags` slices
of the records emitted so far; `sinkTags` is the slice `dd.tags`.  As in the source,
`make` and `copy` run before the type switch. -/
def finalizeStepHeap {F : Type} (spare : Nat → Nat) (env : MetricEnv F)
    (dd : DatadogMetricSink F) (sinkTags : GoSlice) (st : Heap × List GoSlice)
    (m : InterMetric F) : Heap × List GoSlice :=
  if !env.IsAcceptableMetric m dd then st
  else
    let made := Heap.make st.1 sinkTags.len
    let heap := Heap.copy made.1 made.2 sinkTags
    match typeSwitch env dd m with
    | none => (heap, st.2)
    | some _ =>
      let done := m.Tags.foldl (magicTagStepHeap spare) (heap, made.2)
      (done.1, st.2 ++ [done.2])

/-- The method `finalizeMetrics` on the heap: the final heap and the `Tags` slice of
every emitted record, in order. -/
def finalizeMetricsHeap {F : Type} (spare : Nat → Nat) (env : MetricEnv F)
    (dd : DatadogMetricSink F) (sinkTags : GoSlice) (h : Heap)
    (metrics : List (InterMetric F)) : Heap × List GoSlice :=
  metrics.foldl (finalizeStepHeap spare env dd sinkTags) (h, [])

/-- A heap holding one array of three strings, and the sink tag slice over its first
element, with two elements of spare capacity. -/
def sinkHeap : Heap := [["cluster:a", "spare-1", "spare-2"]]

/-- The slice `dd.tags` over `sinkHeap`: length 1, capacity 3. -/
def sinkTagSlice : GoSlice := ⟨0, 0, 1, 3⟩

/-- Two samples of the same name with different plain tags. -/
def sameNameSamples : List (InterMetric ℚ) :=
  [{ Name := "requests", Timestamp := 1500000000, Value := 1,
     Tags := ["host:web-1", "env:prod"], Typ := MetricType.GaugeMetric },
   { Name := "requests", Timestamp := 1500000000, Value := 2,
     Tags := ["env:dev", "device:eth0"], Typ := MetricType.GaugeMetric }]

/-! ## Chunk arithmetic -/

theorem goDiv_natCast (a b : Nat) (hb : 0 < b) :
    goDiv (a : Int) (b : Int) = .ok ((a / b : Nat) : Int) := by
  have hb' : (b : Int) ≠ 0 := by exact_mod_cast hb.ne'
  have h : (a : Int).tdiv (b : Int) = ((a / b : Nat) : Int) := (Int.ofNat_tdiv a b).symm
  simp only [goDiv, hb', if_false, h]

theorem workersOf_succ (n f : Nat) (hf : 0 < f) :
    workersOf ((n + 1 : Nat) : Int) (f : Int) = .ok ((n / f + 1 : Nat) : Int) := by
  have h : ((n + 1 : Nat) : Int) - 1 = (n : Int) := by push_cast; ring
  simp [workersOf, h, goDiv_natCast n f hf]

theorem chunkSizeOf_succ (n w : Nat) (hw : 0 < w) :
    chunkSizeOf ((n + 1 : Nat) : Int) (w : Int) = .ok ((n / w + 1 : Nat) : Int) := by
  have h : ((n + 1 : Nat) : Int) - 1 = (n : Int) := by push_cast; ring
  simp [chunkSizeOf, h, goDiv_natCast n w hw]

/-- The chunk size never exceeds the limit: `n / (n / f + 1) + 1 ≤ f`. -/
theorem chunkSize_le (n f : Nat) (hf : 0 < f) : n / (n / f + 1) + 1 ≤ f := by
  have h1 : n < f * (n / f + 1) := Nat.lt_mul_div_succ n hf
  have h2 : n / (n / f + 1) < f := by
    rw [Nat.div_lt_iff_lt_mul (Nat.succ_pos _)]
    exact h1
  omega

/-- All chunks but the last fit strictly inside a batch of `n + 1` records. -/
theorem chunk_start_lt (n f : Nat) (hf : 0 < f) :
    (n / f) * (n / (n / f + 1) + 1) < n + 1 := by
  have h1 : (n / f) * (n / (n / f + 1) + 1) ≤ (n / f) * f :=
    Nat.mul_le_mul_left _ (chunkSize_le n f hf)
  have h2 : (n / f) * f ≤ n := Nat.div_mul_le_self n f
  omega

/-- The chunks together are large enough for a batch of `n + 1` records. -/
theorem chunk_cover (n w : Nat) (hw : 0 < w) : n + 1 ≤ w * (n / w + 1) := by
  have := Nat.lt_mul_div_succ n hw
  omega

/-! ## The dispatch loop -/

theorem chunkAt_eq {α : Type} (xs : List α) (W C i : Nat) (hi : i < W)
    (hfit : (W - 1) * C ≤ xs.length) :
    chunkAt xs (W : Int) (C : Int) (i : Int) = .ok (chunkOf xs W C i) := by
  have hiC : i * C ≤ (W - 1) * C := Nat.mul_le_mul_right C (by omega)
  have hlo : ¬ ((i : Int) * (C : Int) < 0 ∨ (xs.length : Int) < (i : Int) * (C : Int)) := by
    have h0 : (0 : Int) ≤ (i : Int) * (C : Int) := by positivity
    have h1 : ((i * C : Nat) : Int) ≤ (xs.length : Int) := by exact_mod_cast hiC.trans hfit
    push_cast at h1
    omega
  have htn : ((i : Int) * (C : Int)).toNat = i * C := by
    have : (i : Int) * (C : Int) = ((i * C : Nat) : Int) := by push_cast; rfl
    rw [this, Int.toNat_natCast]
  unfold chunkAt chunkOf sliceFrom
  rw [if_neg hlo, htn]
  by_cases hlast : i + 1 < W
  · have hlt : (i : Int) < (W : Int) - 1 := by omega
    have hnext : (i + 1) * C ≤ (W - 1) * C := Nat.mul_le_mul_right C (by omega)
    have hlen : C ≤ (xs.drop (i * C)).length := by
      rw [List.length_drop]
      have : (i + 1) * C = i * C + C := by ring
      omega
    have hhi : ¬ ((C : Int) < 0 ∨ ((xs.drop (i * C)).length : Int) < (C : Int)) := by omega
    simp only [hlt, if_true, hlast, sliceTo, if_neg hhi, Int.toNat_natCast]
  · have hlt : ¬ (i : Int) < (W : Int) - 1 := by omega
    simp only [hlt, if_false, hlast]

theorem flushLoop_eq {α : Type} (xs : List α) (W C : Nat)
    (hfit : (W - 1) * C ≤ xs.length) :
    ∀ (k i : Nat), i + k = W →
      flushLoop xs (W : Int) (C : Int) k (i : Int) =
        ⟨(List.range k).map (fun j => chunkOf xs W C (i + j)), none⟩ := by
  intro k
  induction k with
  | zero => intro i _; simp [flushLoop]
  | succ k ih =>
    intro i hik
    have hi : i < W := by omega
    have hlt : (i : Int) < (W : Int) := by exact_mod_cast hi
    have hnext : ((i : Int) + 1) = ((i + 1 : Nat) : Int) := by push_cast; rfl
    rw [flushLoop, if_pos hlt, chunkAt_eq xs W C i hi hfit]
    simp only [hnext, ih (i + 1) (by omega)]
    rw [List.range_succ_eq_map]
    simp [List.map_map, Function.comp_def, Nat.add_assoc, Nat.add_comm 1]

/-- The concatenation of the chunks of indices `i, i+1, ..., W-1` is the batch from
offset `i * C` on. -/
theorem flatten_chunks {α : Type} (xs : List α) (W C : Nat) (hcover : xs.length ≤ W * C) :
    ∀ (k i : Nat), i + k = W →
      ((List.range k).map (fun j => chunkOf xs W C (i + j))).flatten = xs.drop (i * C) := by
  intro k
  induction k with
  | zero =>
    intro i hik
    have : i = W := by omega
    subst this
    simp [List.drop_eq_nil_of_le hcover]
  | succ k ih =>
    intro i hik
    rw [List.range_succ_eq_map]
    simp only [List.map_cons, List.map_map, List.flatten_cons, Nat.add_zero]
    have hrest : (List.map ((fun j => chunkOf xs W C (i + j)) ∘ Nat.succ) (List.range k)) =
        (List.range k).map (fun j => chunkOf xs W C (i + 1 + j)) := by
      apply List.map_congr_left
      intro j _
      simp [Function.comp, Nat.add_assoc, Nat.add_comm 1]
    rw [hrest, ih (i + 1) (by omega)]
    unfold chunkOf
    by_cases hlast : i + 1 < W
    · rw [if_pos hlast]
      have : (i + 1) * C = i * C + C := by ring
      rw [this, ← List.drop_drop, List.take_append_drop]
    · rw [if_neg hlast]
      have hk : i + 1 = W := by omega
      have : xs.drop ((i + 1) * C) = [] := List.drop_eq_nil_of_le (by rw [hk]; exact hcover)
      rw [this, List.append_nil]

/-! ## The chunks of a flush -/

/-- The run of the chunk dispatch on a non-empty batch: no fault, and the chunks are
those of indices `0 .. W-1` for `W = n / f + 1` and `C = n / W + 1`, `n + 1` being
the batch length. -/
theorem flushChunks_nonempty {α : Type} (xs : List α) (n f : Nat)
    (hlen : xs.length = n + 1) (hf : 0 < f) :
    flushChunks xs (f : Int) =
      ⟨(List.range (n / f + 1)).map
        (fun j => chunkOf xs (n / f + 1) (n / (n / f + 1) + 1) j), none⟩ := by
  have hfit : (n / f + 1 - 1) * (n / (n / f + 1) + 1) ≤ xs.length := by
    have := chunk_start_lt n f hf
    simp only [Nat.add_sub_cancel]
    omega
  have h := flushLoop_eq xs (n / f + 1) (n / (n / f + 1) + 1) hfit (n / f + 1) 0 (by omega)
  simp only [Nat.zero_add, Nat.cast_zero] at h
  unfold flushChunks
  rw [hlen, workersOf_succ n f hf]
  simp only [chunkSizeOf_succ n (n / f + 1) (Nat.succ_pos _), Int.toNat_natCast]
  exact h

/-- The run of the chunk dispatch on an empty batch with a limit of at least two:
one worker, chunk size zero, and one empty chunk is dispatched. -/
theorem flushChunks_nil {α : Type} (f : Int) (hf : 2 ≤ f) :
    flushChunks ([] : List α) f = ⟨[[]], none⟩ := by
  have hf0 : f ≠ 0 := by omega
  have hq : Int.tdiv (-1) f = 0 := by
    rw [Int.neg_tdiv, Int.tdiv_eq_zero_of_lt (by decide) (by omega)]
    rfl
  have hw : workersOf (0 : Int) f = .ok 1 := by
    simp [workersOf, goDiv, hf0, hq]
  have hc : chunkSizeOf (0 : Int) 1 = .ok 0 := by decide
  unfold flushChunks
  simp only [List.length_nil, Nat.cast_zero, hw, hc]
  rfl

/-- The run of the chunk dispatch on an empty batch with limit one: the worker count
is zero and the chunk size computation divides by it. -/
theorem flushChunks_nil_one {α : Type} :
    flushChunks ([] : List α) 1 = ⟨[], some Fault.divideByZero⟩ := by
  have hw : workersOf (0 : Int) 1 = .ok 0 := by decide
  have hc : chunkSizeOf (0 : Int) 0 = .error Fault.divideByZero := by decide
  unfold flushChunks
  simp only [List.length_nil, Nat.cast_zero, hw, hc]

/-- Every chunk of a non-empty batch has at most `C` elements when the chunks cover it. -/
theorem length_chunkOf_le {α : Type} (xs : List α) (W C i : Nat) (hi : i < W)
    (hcover : xs.length ≤ W * C) : (chunkOf xs W C i).length ≤ C := by
  unfold chunkOf
  by_cases hlast : i + 1 < W
  · rw [if_pos hlast, List.length_take]
    exact Nat.min_le_left _ _
  · rw [if_neg hlast, List.length_drop]
    have hW : W = i + 1 := by omega
    have : W * C = i * C + C := by rw [hW]; ring
    omega

/-- The dispatched chunks of any batch, concatenated, are the batch. -/
theorem flatten_flushChunks {α : Type} (xs : List α) (f : Int) (hf : 0 < f) :
    (flushChunks xs f).dispatched.flatten = xs := by
  obtain ⟨fn, rfl⟩ : ∃ fn : Nat, f = (fn : Int) := ⟨f.toNat, (Int.toNat_of_nonneg hf.le).symm⟩
  have hfn : 0 < fn := by exact_mod_cast hf
  rcases Nat.eq_zero_or_pos xs.length with h0 | hpos
  · have hx : xs = [] := List.length_eq_zero.mp h0
    subst hx
    rcases Nat.lt_or_ge fn 2 with h1 | h2
    · have : fn = 1 := by omega
      subst this
      have := flushChunks_nil_one (α := α)
      simp only [Nat.cast_one] at *
      rw [this]
      rfl
    · rw [flushChunks_nil (fn : Int) (by exact_mod_cast h2)]
      rfl
  · obtain ⟨n, hn⟩ : ∃ n, xs.length = n + 1 := ⟨xs.length - 1, by omega⟩
    rw [flushChunks_nonempty xs n fn hn hfn]
    have hcover : xs.length ≤ (n / fn + 1) * (n / (n / fn + 1) + 1) := by
      rw [hn]; exact chunk_cover n (n / fn + 1) (Nat.succ_pos _)
    have h := flatten_chunks xs (n / fn + 1) (n / (n / fn + 1) + 1) hcover (n / fn + 1) 0
      (by omega)
    simpa using h

/-- A run of the chunk dispatch faults only on an empty batch with limit one. -/
theorem fault_flushChunks {α : Type} (xs : List α) (f : Int) (hf : 0 < f)
    (h : xs ≠ [] ∨ 2 ≤ f) : (flushChunks xs f).fault = none := by
  obtain ⟨fn, rfl⟩ : ∃ fn : Nat, f = (fn : Int) := ⟨f.toNat, (Int.toNat_of_nonneg hf.le).symm⟩
  have hfn : 0 < fn := by exact_mod_cast hf
  rcases Nat.eq_zero_or_pos xs.length with h0 | hpos
  · have hx : xs = [] := List.length_eq_zero.mp h0
    subst hx
    rcases h with h | h
    · exact absurd rfl h
    · rw [flushChunks_nil (fn : Int) h]
  · obtain ⟨n, hn⟩ : ∃ n, xs.length = n + 1 := ⟨xs.length - 1, by omega⟩
    rw [flushChunks_nonempty xs n fn hn hfn]

/-- Every dispatched chunk of any batch has at most `flushMaxPerBody` elements. -/
theorem length_le_flushChunks {α : Type} (xs : List α) (f : Int) (hf : 0 < f) :
    ∀ chunk ∈ (flushChunks xs f).dispatched, (chunk.length : Int) ≤ f := by
  obtain ⟨fn, rfl⟩ : ∃ fn : Nat, f = (fn : Int) := ⟨f.toNat, (Int.toNat_of_nonneg hf.le).symm⟩
  have hfn : 0 < fn := by exact_mod_cast hf
  rcases Nat.eq_zero_or_pos xs.length with h0 | hpos
  · have hx : xs = [] := List.length_eq_zero.mp h0
    subst hx
    rcases Nat.lt_or_ge fn 2 with h1 | h2
    · have : fn = 1 := by omega
      subst this
      have := flushChunks_nil_one (α := α)
      simp only [Nat.cast_one] at *
      rw [this]
      intro chunk hc
      cases hc
    · rw [flushChunks_nil (fn : Int) (by exact_mod_cast h2)]
      intro chunk hc
      simp only [List.mem_singleton] at hc
      subst hc
      simp
  · obtain ⟨n, hn⟩ : ∃ n, xs.length = n + 1 := ⟨xs.length - 1, by omega⟩
    rw [flushChunks_nonempty xs n fn hn hfn]
    intro chunk hc
    simp only [List.mem_map, List.mem_range] at hc
    obtain ⟨j, hj, rfl⟩ := hc
    have hcover : xs.length ≤ (n / fn + 1) * (n / (n / fn + 1) + 1) := by
      rw [hn]; exact chunk_cover n (n / fn + 1) (Nat.succ_pos _)
    have h1 := length_chunkOf_le xs (n / fn + 1) (n / (n / fn + 1) + 1) j hj hcover
    have h2 := chunkSize_le n fn hfn
    exact_mod_cast h1.trans h2

/-- All chunks but the last are full when the full chunks fit in the batch. -/
theorem map_length_chunkOf {α : Type} (xs : List α) (W C : Nat)
    (hfit : (W - 1) * C ≤ xs.length) :
    ∀ k, k + 1 ≤ W →
      (List.range k).map (fun j => (chunkOf xs W C j).length) = List.replicate k C := by
  intro k
  induction k with
  | zero => intro _; rfl
  | succ k ih =>
    intro hk
    rw [List.range_succ, List.map_append, ih (by omega), List.replicate_succ']
    congr 1
    have hlt : k + 1 < W := by omega
    have hnext : (k + 1) * C ≤ (W - 1) * C := Nat.mul_le_mul_right C (by omega)
    have hexp : (k + 1) * C = k * C + C := by ring
    simp only [List.map_cons, List.map_nil, chunkOf, if_pos hlt, List.length_take,
      List.length_drop]
    congr 1
    omega

/-- The shape of the chunks of a non-empty batch of `n + 1` records: the worker count
`W` is the ceiling of `(n + 1) / f`, the chunk size `C` is the ceiling of
`(n + 1) / W`, the first `W - 1` chunks have `C` elements and the last has the
remaining `n + 1 - C * (W - 1)`, between one and `C`. -/
theorem chunk_shape_nonempty {α : Type} (xs : List α) (n f : Nat)
    (hlen : xs.length = n + 1) (hf : 0 < f) :
    ∃ W C : Nat,
      workersOf (xs.length : Int) (f : Int) = .ok (W : Int) ∧
      chunkSizeOf (xs.length : Int) (W : Int) = .ok (C : Int) ∧
      (W - 1) * f < n + 1 ∧ n + 1 ≤ W * f ∧
      (C - 1) * W < n + 1 ∧ n + 1 ≤ C * W ∧
      (flushChunks xs (f : Int)).fault = none ∧
      (flushChunks xs (f : Int)).dispatched.map List.length =
        List.replicate (W - 1) C ++ [n + 1 - C * (W - 1)] ∧
      1 ≤ n + 1 - C * (W - 1) ∧ n + 1 - C * (W - 1) ≤ C := by
  have hstart := chunk_start_lt n f hf
  have hcover := chunk_cover n (n / f + 1) (Nat.succ_pos _)
  have hfit : (n / f + 1 - 1) * (n / (n / f + 1) + 1) ≤ xs.length := by
    simp only [Nat.add_sub_cancel]
    omega
  have hcomm : (n / (n / f + 1) + 1) * (n / f) = (n / f) * (n / (n / f + 1) + 1) :=
    Nat.mul_comm _ _
  refine ⟨n / f + 1, n / (n / f + 1) + 1, ?_, ?_, ?_, ?_, ?_, ?_, ?_, ?_, ?_, ?_⟩
  · rw [hlen]; exact workersOf_succ n f hf
  · rw [hlen]; exact chunkSizeOf_succ n _ (Nat.succ_pos _)
  · have := Nat.div_mul_le_self n f
    simp only [Nat.add_sub_cancel]
    omega
  · have := Nat.lt_mul_div_succ n hf
    rw [Nat.mul_comm]
    omega
  · have := Nat.div_mul_le_self n (n / f + 1)
    simp only [Nat.add_sub_cancel]
    omega
  · rw [Nat.mul_comm]; exact hcover
  · rw [flushChunks_nonempty xs n f hlen hf]
  · rw [flushChunks_nonempty xs n f hlen hf]
    simp only [List.map_map, Function.comp_def, Nat.add_sub_cancel]
    rw [List.range_succ, List.map_append,
      map_length_chunkOf xs (n / f + 1) (n / (n / f + 1) + 1) hfit (n / f) (le_refl _)]
    congr 1
    simp only [List.map_cons, List.map_nil, chunkOf, Nat.lt_irrefl, if_false,
      List.length_drop, hlen, hcomm]
  · simp only [Nat.add_sub_cancel, hcomm]
    omega
  · simp only [Nat.add_sub_cancel, hcomm]
    have : (n / f + 1) * (n / (n / f + 1) + 1) =
        (n / f) * (n / (n / f + 1) + 1) + (n / (n / f + 1) + 1) := by ring
    omega

/-- The worked example of the chunk shape: 1000 records with limit 400 give three
workers, chunk size 334 and chunks of 334, 334 and 332 records. -/
theorem chunk_shape_example {α : Type} (xs : List α) (hlen : xs.length = 1000) :
    workersOf (xs.length : Int) 400 = .ok 3 ∧ chunkSizeOf (xs.length : Int) 3 = .ok 334 ∧
    (flushChunks xs 400).dispatched.map List.length = [334, 334, 332] := by
  have h := flushChunks_nonempty xs 999 400 hlen (by decide)
  have hW : 999 / 400 + 1 = 3 := by decide
  have hC : 999 / 3 + 1 = 334 := by decide
  rw [hW, hC] at h
  have h400 : ((400 : Nat) : Int) = 400 := rfl
  rw [h400] at h
  refine ⟨by rw [hlen]; decide, by rw [hlen]; decide, ?_⟩
  rw [h]
  simp only [List.range_succ, List.range_zero, List.nil_append, List.cons_append,
    List.map_cons, List.map_nil, chunkOf]
  have h0 : (0 : Nat) + 1 < 3 := by decide
  have h1 : (1 : Nat) + 1 < 3 := by decide
  have h2 : ¬ ((2 : Nat) + 1 < 3) := by decide
  rw [if_pos h0, if_pos h1, if_neg h2]
  simp only [List.length_take, List.length_drop, hlen]
  decide

/-! ## Claims on the chunked flush -/

/-- C1 (chunk coverage): for every batch of samples and every positive
`flushMaxPerBody`, the chunks that `Flush` hands to `flushPart`, concatenated in the
order of the loop index, are exactly the finalized batch; and the run ends without a
fault whenever the finalized batch is non-empty or the limit is at least two. -/
theorem C1_chunk_coverage {F : Type} (env : MetricEnv F) (dd : DatadogMetricSink F)
    (interMetrics : List (InterMetric F)) (hf : 0 < dd.flushMaxPerBody) :
    (dd.Flush env interMetrics).dispatched.flatten = dd.finalizeMetrics env interMetrics ∧
    (dd.finalizeMetrics env interMetrics ≠ [] ∨ 2 ≤ dd.flushMaxPerBody →
      (dd.Flush env interMetrics).fault = none) :=
  ⟨flatten_flushChunks _ _ hf, fun h => fault_flushChunks _ _ hf h⟩

/-- Witness of C1: three gauge samples flushed with limit two. -/
theorem C1_chunk_coverage_witness :
    0 < (sinkWithLimit 2).flushMaxPerBody ∧
    ((sinkWithLimit 2).Flush acceptAll threeGauges).dispatched.flatten =
      (sinkWithLimit 2).finalizeMetrics acceptAll threeGauges ∧
    ((sinkWithLimit 2).finalizeMetrics acceptAll threeGauges ≠ [] ∨
        2 ≤ (sinkWithLimit 2).flushMaxPerBody →
      ((sinkWithLimit 2).Flush acceptAll threeGauges).fault = none) :=
  ⟨by decide, C1_chunk_coverage acceptAll (sinkWithLimit 2) threeGauges (by decide)⟩

/-- C2 (chunk size bound): for every batch and every positive `flushMaxPerBody`, every
chunk that `Flush` dispatches has at most `flushMaxPerBody` elements; and whenever
the finalized batch is non-empty or the limit is at least two, the worker count and
the chunk size are computed and the chunk size is at most `flushMaxPerBody`. -/
theorem C2_chunk_size_bound {F : Type} (env : MetricEnv F) (dd : DatadogMetricSink F)
    (interMetrics : List (InterMetric F)) (hf : 0 < dd.flushMaxPerBody) :
    (∀ chunk ∈ (dd.Flush env interMetrics).dispatched,
      (chunk.length : Int) ≤ dd.flushMaxPerBody) ∧
    (dd.finalizeMetrics env interMetrics ≠ [] ∨ 2 ≤ dd.flushMaxPerBody →
      ∃ workers chunkSize : Int,
        workersOf (dd.finalizeMetrics env interMetrics).length dd.flushMaxPerBody
          = .ok workers ∧
        chunkSizeOf (dd.finalizeMetrics env interMetrics).length workers = .ok chunkSize ∧
        chunkSize ≤ dd.flushMaxPerBody) := by
  refine ⟨length_le_flushChunks _ _ hf, fun h => ?_⟩
  generalize dd.finalizeMetrics env interMetrics = xs at h
  generalize dd.flushMaxPerBody = f at hf h
  obtain ⟨fn, rfl⟩ : ∃ fn : Nat, f = (fn : Int) := ⟨f.toNat, (Int.toNat_of_nonneg hf.le).symm⟩
  have hfn : 0 < fn := by exact_mod_cast hf
  rcases Nat.eq_zero_or_pos xs.length with h0 | hpos
  · have hx : xs = [] := List.length_eq_zero.mp h0
    subst hx
    have h2 : (2 : Int) ≤ (fn : Int) := by
      rcases h with h | h
      · exact absurd rfl h
      · exact h
    have hf0 : (fn : Int) ≠ 0 := by omega
    have hq : Int.tdiv (-1) (fn : Int) = 0 := by
      rw [Int.neg_tdiv, Int.tdiv_eq_zero_of_lt (by decide) (by omega)]
      rfl
    refine ⟨1, 0, ?_, by rfl, by omega⟩
    simp [workersOf, goDiv, hf0, hq]
  · obtain ⟨n, hn⟩ : ∃ n, xs.length = n + 1 := ⟨xs.length - 1, by omega⟩
    refine ⟨((n / fn + 1 : Nat) : Int), ((n / (n / fn + 1) + 1 : Nat) : Int), ?_, ?_, ?_⟩
    · rw [hn]; exact workersOf_succ n fn hfn
    · rw [hn]; exact chunkSizeOf_succ n _ (Nat.succ_pos _)
    · exact_mod_cast chunkSize_le n fn hfn

/-- Witness of C2: three gauge samples flushed with limit two. -/
theorem C2_chunk_size_bound_witness :
    0 < (sinkWithLimit 2).flushMaxPerBody ∧
    ∀ chunk ∈ ((sinkWithLimit 2).Flush acceptAll threeGauges).dispatched,
      (chunk.length : Int) ≤ (sinkWithLimit 2).flushMaxPerBody :=
  ⟨by decide, (C2_chunk_size_bound acceptAll (sinkWithLimit 2) threeGauges (by decide)).1⟩

/-- C3 (chunk shape) at an empty batch with limit two: `Flush` computes one worker,
although the ceiling of `0 / 2` is zero, and chunk size zero. -/
theorem C3_workers_on_empty_batch {F : Type} (env : MetricEnv F) (dd : DatadogMetricSink F) :
    ({ dd with flushMaxPerBody := 2 }.finalizeMetrics env []).length = 0 ∧
    workersOf (0 : Nat) 2 = .ok 1 ∧ chunkSizeOf (0 : Nat) 1 = .ok 0 ∧
    Int.ceil ((0 : ℚ) / 2) = 0 :=
  ⟨rfl, by decide, by decide, by simp⟩

/-- C4 (empty batch) with limit two: `Flush` on no samples runs one worker and hands
one chunk, the empty one, to `flushPart`. -/
theorem C4_empty_batch_dispatches_chunk {F : Type} (env : MetricEnv F)
    (dd : DatadogMetricSink F) :
    { dd with flushMaxPerBody := 2 }.Flush env [] = ⟨[[]], none⟩ :=
  flushChunks_nil 2 (by decide)

/-- C5 (empty batch safety) with limit one: `Flush` on no samples computes zero
workers and faults dividing by them. -/
theorem C5_empty_batch_divides_by_zero {F : Type} (env : MetricEnv F)
    (dd : DatadogMetricSink F) :
    { dd with flushMaxPerBody := 1 }.Flush env [] = ⟨[], some Fault.divideByZero⟩ :=
  flushChunks_nil_one

/-! ## The span ring -/

/-- Writing the designated element and stepping forward drops the head of the visiting
order and appends the written value. -/
theorem visit_setValue_Next (r : Ring) (v : Option SSFSpan) (hpos : r.pos < r.values.length) :
    Ring.visit (some (r.setValue v).Next) = (Ring.visit (some r)).tail ++ [v] := by
  obtain ⟨l, p⟩ := r
  simp only at hpos
  obtain ⟨a, x, b, rfl, rfl⟩ : ∃ a x b, l = a ++ x :: b ∧ a.length = p := by
    refine ⟨l.take p, l[p], l.drop (p + 1), ?_, ?_⟩
    · rw [← List.drop_eq_getElem_cons hpos, List.take_append_drop]
    · simp [List.length_take]; omega
  simp only [Ring.visit, Ring.Next, Ring.setValue]
  have hset : (a ++ x :: b).set a.length v = a ++ v :: b := by simp
  rw [hset]
  have hlen : (a ++ v :: b).length = a.length + 1 + b.length := by
    simp; omega
  rw [hlen]
  cases b with
  | nil =>
    simp
  | cons y b =>
    have hmod : (a.length + 1) % (a.length + 1 + (y :: b).length) = a.length + 1 :=
      Nat.mod_eq_of_lt (by simp)
    rw [hmod]
    have h1 : List.drop (a.length + 1) (a ++ v :: y :: b) = y :: b := by
      have : a ++ v :: y :: b = (a ++ [v]) ++ (y :: b) := by simp
      rw [this, List.drop_left' (by simp)]
    have h2 : List.take (a.length + 1) (a ++ v :: y :: b) = a ++ [v] := by
      have : a ++ v :: y :: b = (a ++ [v]) ++ (y :: b) := by simp
      rw [this, List.take_left' (by simp)]
    rw [h1, h2]
    simp

theorem SinkInv_New (bufferSize : Int) (commonTags : TagMap) (address : String) :
    SinkInv { buffer := Ring.New bufferSize, bufferSize := bufferSize,
              commonTags := commonTags, traceAddress := address } := by
  unfold SinkInv Ring.New
  by_cases h : bufferSize ≤ 0
  · simp [h]
  · have hpos : 0 < bufferSize := by omega
    simp only [h, if_false, List.length_replicate]
    exact ⟨hpos, trivial, by omega⟩

theorem SinkInv_Ingest (env : SpanEnv) (dd dd' : DatadogSpanSink) (span : SSFSpan)
    (err : Option String) (hinv : SinkInv dd) (h : dd.Ingest env span = .ok (dd', err)) :
    SinkInv dd' := by
  unfold DatadogSpanSink.Ingest at h
  cases hv : env.ValidateTrace span with
  | some e =>
    simp only [hv] at h
    injection h with h
    injection h with h1 _
    rw [← h1]; exact hinv
  | none =>
    simp only [hv] at h
    cases hb : dd.buffer with
    | none => simp [hb] at h
    | some r =>
      simp only [hb] at h
      injection h with h
      injection h with h1 _
      subst h1
      unfold SinkInv at hinv ⊢
      simp only [hb] at hinv
      obtain ⟨h0, hl, hp⟩ := hinv
      simp only [Ring.Next, Ring.setValue, List.length_set]
      exact ⟨h0, hl, Nat.mod_lt _ (by omega)⟩

theorem sink_Flush (env : SpanEnv) (dd : DatadogSpanSink) :
    (dd.Flush env).sink = { dd with buffer := Ring.New dd.bufferSize } := by
  unfold DatadogSpanSink.Flush
  simp only
  split <;> rfl

theorem SinkInv_of_Reachable (env : SpanEnv) (dd : DatadogSpanSink) (h : Reachable env dd) :
    SinkInv dd := by
  induction h with
  | new address bufferSize commonTags => exact SinkInv_New _ _ _
  | ingest dd dd' span err _ hi ih => exact SinkInv_Ingest env dd dd' span err ih hi
  | flush dd _ _ => rw [sink_Flush]; exact SinkInv_New _ _ _

theorem drainStep_none (commonTags : TagMap) (acc : List SSFSample × List SSFSpan) :
    drainStep commonTags acc none = acc := rfl

theorem drainStep_some (commonTags : TagMap) (acc : List SSFSample × List SSFSpan)
    (span : SSFSpan) :
    drainStep commonTags acc (some span) = (acc.1, acc.2 ++ [addCommonTags commonTags span]) := by
  simp [drainStep]

/-- The drain loop leaves the samples alone and collects the non-nil values in the
order visited, each with the common tags assigned. -/
theorem foldl_drainStep (commonTags : TagMap) (view : List (Option SSFSpan)) :
    ∀ acc : List SSFSample × List SSFSpan,
      view.foldl (drainStep commonTags) acc =
        (acc.1, acc.2 ++ (view.filterMap id).map (addCommonTags commonTags)) := by
  induction view with
  | nil => intro acc; simp
  | cons t view ih =>
    intro acc
    cases t with
    | none => simp [List.foldl_cons, drainStep_none, ih]
    | some span => simp [List.foldl_cons, drainStep_some, ih]

theorem length_visit (r : Ring) (hpos : r.pos < r.values.length) :
    (Ring.visit (some r)).length = r.values.length := by
  simp only [Ring.visit, List.length_append, List.length_drop, List.length_take]
  omega

/-- Ingesting valid spans into a non-nil ring returns, keeps the ring size, and shifts
the visiting order: the spans enter at the end and as many values leave at the front. -/
theorem ingestAll_visit (env : SpanEnv) (spans : List SSFSpan)
    (hvalid : ∀ span ∈ spans, env.ValidateTrace span = none) :
    ∀ (dd : DatadogSpanSink) (r : Ring), dd.buffer = some r → r.pos < r.values.length →
      ∃ r' : Ring, ingestAll env dd spans = .ok { dd with buffer := some r' } ∧
        r'.values.length = r.values.length ∧ r'.pos < r'.values.length ∧
        Ring.visit (some r') =
          (Ring.visit (some r) ++ spans.map some).drop spans.length := by
  induction spans with
  | nil =>
    intro dd r hb hpos
    refine ⟨r, ?_, rfl, hpos, by simp⟩
    simp [ingestAll, ← hb]
  | cons span rest ih =>
    intro dd r hb hpos
    have hv : env.ValidateTrace span = none := hvalid span (List.mem_cons_self _ _)
    have hrest : ∀ s ∈ rest, env.ValidateTrace s = none :=
      fun s hs => hvalid s (List.mem_cons_of_mem _ hs)
    have hlen1 : ((r.setValue (some span)).Next).values.length = r.values.length := by
      simp [Ring.Next, Ring.setValue]
    have hpos1 : ((r.setValue (some span)).Next).pos <
        ((r.setValue (some span)).Next).values.length := by
      simp only [Ring.Next, Ring.setValue, List.length_set]
      exact Nat.mod_lt _ (by omega)
    obtain ⟨r', h1, h2, h3, h4⟩ :=
      ih hrest { dd with buffer := some (r.setValue (some span)).Next }
        (r.setValue (some span)).Next rfl hpos1
    refine ⟨r', ?_, by rw [h2, hlen1], h3, ?_⟩
    · simp only [ingestAll, DatadogSpanSink.Ingest, hv, hb]
      exact h1
    · rw [h4, visit_setValue_Next r (some span) hpos]
      have hne : (Ring.visit (some r)).length ≠ 0 := by
        rw [length_visit r hpos]; omega
      cases hV : Ring.visit (some r) with
      | nil => simp [hV] at hne
      | cons v0 T => simp

/-- The non-nil values left after `n` spans went through a ring of `C` nil values. -/
theorem filterMap_drop_replicate (C : Nat) (spans : List SSFSpan) :
    (((List.replicate C (none : Option SSFSpan)) ++ spans.map some).drop
        spans.length).filterMap id = spans.drop (spans.length - C) := by
  rw [List.drop_append_eq_append_drop, List.filterMap_append]
  have h1 : ((List.replicate C (none : Option SSFSpan)).drop spans.length).filterMap id = [] := by
    rw [List.filterMap_eq_nil_iff]
    intro a ha
    have := List.mem_of_mem_drop ha
    rw [List.mem_replicate] at this
    rw [this.2]; rfl
  rw [h1, List.length_replicate, List.nil_append, ← List.map_drop, List.filterMap_map]
  exact List.filterMap_some _

theorem ssfSpans_Flush (env : SpanEnv) (dd : DatadogSpanSink) :
    (dd.Flush env).ssfSpans =
      ((Ring.visit dd.buffer).filterMap id).map (addCommonTags dd.commonTags) := by
  unfold DatadogSpanSink.Flush
  simp only [foldl_drainStep, List.nil_append]
  split <;> rfl

/-- A flush of a ring without spans collects nothing, groups nothing and sends nothing. -/
theorem Flush_of_all_nil (env : SpanEnv) (dd : DatadogSpanSink)
    (h : ∀ v ∈ Ring.visit dd.buffer, v = none) :
    (dd.Flush env).ssfSpans = [] ∧ (dd.Flush env).traceMap = [] ∧
    (dd.Flush env).finalTraces = [] ∧ (dd.Flush env).request = none ∧
    (dd.Flush env).samples = [] := by
  have hnil : (Ring.visit dd.buffer).filterMap id = [] := by
    rw [List.filterMap_eq_nil_iff]
    intro a ha
    rw [h a ha]; rfl
  unfold DatadogSpanSink.Flush
  simp [foldl_drainStep, hnil]

theorem visit_New (n : Int) : ∀ v ∈ Ring.visit (Ring.New n), v = none := by
  intro v hv
  unfold Ring.New at hv
  by_cases h : n ≤ 0
  · simp [h, Ring.visit] at hv
  · simp only [h, if_false, Ring.visit, List.drop_zero, List.take_zero, List.append_nil] at hv
    exact (List.mem_replicate.mp hv).2

/-! ## Claims on the span ring -/

/-- C6 (ring overwrite): for every capacity `C > 0` and every sequence of valid spans
ingested into a new sink of that capacity, every `Ingest` returns, and the spans the
next `Flush` collects are the last `min n C` spans ingested, each once (with the
common tags assigned by the drain loop); so at most `C` spans are collected. -/
theorem C6_ring_overwrite (env : SpanEnv) (address : String) (commonTags : TagMap)
    (C : Nat) (hC : 0 < C) (spans : List SSFSpan)
    (hvalid : ∀ span ∈ spans, env.ValidateTrace span = none) :
    ∃ dd : DatadogSpanSink,
      ingestAll env (NewDatadogSpanSink address (C : Int) commonTags) spans = .ok dd ∧
      (dd.Flush env).ssfSpans =
        (spans.drop (spans.length - C)).map (addCommonTags commonTags) ∧
      (dd.Flush env).ssfSpans.length = min spans.length C ∧
      (dd.Flush env).ssfSpans.length ≤ C := by
  have hC0 : ¬ ((C : Int) = 0) := by omega
  have hCle : ¬ ((C : Int) ≤ 0) := by omega
  have hnew : NewDatadogSpanSink address (C : Int) commonTags =
      { buffer := some ⟨List.replicate C none, 0⟩, bufferSize := (C : Int),
        commonTags := commonTags, traceAddress := address } := by
    simp [NewDatadogSpanSink, Ring.New, hC0, hCle]
  obtain ⟨r', h1, _, _, h4⟩ := ingestAll_visit env spans hvalid
    (NewDatadogSpanSink address (C : Int) commonTags) ⟨List.replicate C none, 0⟩
    (by rw [hnew]) (by simpa using hC)
  have hdrained : (DatadogSpanSink.Flush env
      { NewDatadogSpanSink address (C : Int) commonTags with buffer := some r' }).ssfSpans =
      (spans.drop (spans.length - C)).map (addCommonTags commonTags) := by
    have hv0 : Ring.visit (some ⟨List.replicate C none, 0⟩) = List.replicate C none := by
      simp [Ring.visit]
    rw [hv0] at h4
    rw [ssfSpans_Flush]
    show List.map (addCommonTags (NewDatadogSpanSink address (C : Int) commonTags).commonTags)
      (List.filterMap id (Ring.visit (some r'))) = _
    rw [h4, filterMap_drop_replicate, hnew]
  refine ⟨_, h1, hdrained, ?_, ?_⟩
  · rw [hdrained, List.length_map, List.length_drop]; omega
  · rw [hdrained, List.length_map, List.length_drop]; omega

/-- Witness of C6: capacity 4, spans `s1 .. s6` ingested, the flush collects the spans
with ids 3, 4, 5, 6. -/
theorem C6_ring_overwrite_witness :
    0 < 4 ∧ (∀ span ∈ sixSpans, needIds.ValidateTrace span = none) ∧
    ∃ dd : DatadogSpanSink,
      ingestAll needIds (NewDatadogSpanSink "localhost:8126" 4 []) sixSpans = .ok dd ∧
      (dd.Flush needIds).ssfSpans.map (fun span => span.Id) = [3, 4, 5, 6] := by
  refine ⟨by decide, by decide, ?_⟩
  obtain ⟨dd, h1, h2, _, _⟩ :=
    C6_ring_overwrite needIds "localhost:8126" [] 4 (by decide) sixSpans (by decide)
  exact ⟨dd, h1, by rw [h2]; decide⟩

/-- C7 (ingest validation): `Ingest` returns an error exactly when the validator
rejects the span; with an error the sink, ring and pointer included, is unchanged;
when it returns nil, the designated element of the ring holds the span, no other
element changed, and the pointer moved on by one modulo the ring size; and on a
non-nil ring `Ingest` of an accepted span does return nil. -/
theorem C7_ingest_validation (env : SpanEnv) (dd : DatadogSpanSink) (span : SSFSpan) :
    ((∃ dd' err, dd.Ingest env span = .ok (dd', some err)) ↔
      env.ValidateTrace span ≠ none) ∧
    (∀ dd' err, dd.Ingest env span = .ok (dd', some err) →
      dd' = dd ∧ env.ValidateTrace span = some err) ∧
    (∀ dd', dd.Ingest env span = .ok (dd', none) →
      ∃ r : Ring, dd.buffer = some r ∧
        dd' = { dd with
          buffer := some ⟨r.values.set r.pos (some span), (r.pos + 1) % r.values.length⟩ }) ∧
    (∀ r : Ring, dd.buffer = some r → env.ValidateTrace span = none →
      ∃ dd', dd.Ingest env span = .ok (dd', none)) := by
  unfold DatadogSpanSink.Ingest
  cases hv : env.ValidateTrace span with
  | some e =>
    refine ⟨⟨fun _ => by simp, fun _ => ⟨dd, e, rfl⟩⟩, ?_, ?_, ?_⟩
    · intro dd' err h
      injection h with h
      injection h with h1 h2
      exact ⟨h1.symm, h2⟩
    · intro dd' h
      injection h with h
      injection h with _ h2
      cases h2
    · intro r _ h
      cases h
  | none =>
    cases hb : dd.buffer with
    | none =>
      refine ⟨⟨fun ⟨_, _, h⟩ => (by cases h), fun h => absurd rfl h⟩, ?_, ?_, ?_⟩
      · intro dd' err h
        cases h
      · intro dd' h
        cases h
      · intro r h _
        cases h
    | some r =>
      refine ⟨⟨fun ⟨_, _, h⟩ => ?_, fun h => absurd rfl h⟩, ?_, ?_, ?_⟩
      · injection h with h
        injection h with _ h2
        cases h2
      · intro dd' err h
        injection h with h
        injection h with _ h2
        cases h2
      · intro dd' h
        injection h with h
        injection h with h1 _
        refine ⟨r, rfl, ?_⟩
        rw [← h1]
        simp [Ring.Next, Ring.setValue]
      · intro r' _ _
        exact ⟨_, rfl⟩

/-- Witness of C7: on a new sink of capacity 4 an accepted span is written at element 0
and the pointer moves to element 1; a span without ids is refused and nothing changes. -/
theorem C7_ingest_validation_witness :
    (NewDatadogSpanSink "localhost:8126" 4 []).Ingest needIds (spanWithId 1) =
      .ok ({ NewDatadogSpanSink "localhost:8126" 4 [] with
              buffer := some ⟨[some (spanWithId 1), none, none, none], 1⟩ }, none) ∧
    (NewDatadogSpanSink "localhost:8126" 4 []).Ingest needIds (spanWithId 0) =
      .ok (NewDatadogSpanSink "localhost:8126" 4 [], some "invalid span") ∧
    ((∃ dd' err, (NewDatadogSpanSink "localhost:8126" 4 []).Ingest needIds (spanWithId 0)
        = .ok (dd', some err)) ↔ needIds.ValidateTrace (spanWithId 0) ≠ none) :=
  ⟨by decide, by decide,
    (C7_ingest_validation needIds (NewDatadogSpanSink "localhost:8126" 4 [])
      (spanWithId 0)).1⟩

/-- C8 (drain resets the buffer): after `Flush` on a reachable sink the buffer size
setting is unchanged, the ring has the size it had before (`bufferSize` elements) and
every element is nil; and a second `Flush` right after collects no span, builds no
trace group, makes no trace request and reports no sample. -/
theorem C8_drain_resets (env : SpanEnv) (dd : DatadogSpanSink) (h : Reachable env dd) :
    (dd.Flush env).sink.bufferSize = dd.bufferSize ∧
    Ring.Len (dd.Flush env).sink.buffer = Ring.Len dd.buffer ∧
    Ring.Len (dd.Flush env).sink.buffer = dd.bufferSize.toNat ∧
    (∀ r : Ring, (dd.Flush env).sink.buffer = some r → ∀ v ∈ r.values, v = none) ∧
    ((dd.Flush env).sink.Flush env).ssfSpans = [] ∧
    ((dd.Flush env).sink.Flush env).traceMap = [] ∧
    ((dd.Flush env).sink.Flush env).finalTraces = [] ∧
    ((dd.Flush env).sink.Flush env).request = none ∧
    ((dd.Flush env).sink.Flush env).samples = [] := by
  have hinv := SinkInv_of_Reachable env dd h
  have hlenNew : Ring.Len (Ring.New dd.bufferSize) = dd.bufferSize.toNat := by
    unfold Ring.New Ring.Len
    by_cases h0 : dd.bufferSize ≤ 0
    · simp only [h0, if_true]; omega
    · simp [h0]
  have hlenOld : Ring.Len dd.buffer = dd.bufferSize.toNat := by
    unfold SinkInv at hinv
    unfold Ring.Len
    cases hb : dd.buffer with
    | none => simp only [hb] at hinv ⊢; omega
    | some r => simp only [hb] at hinv ⊢; exact hinv.2.1
  have hsecond := Flush_of_all_nil env (dd.Flush env).sink
    (by rw [sink_Flush]; exact visit_New dd.bufferSize)
  rw [sink_Flush] at hsecond ⊢
  refine ⟨rfl, by rw [hlenOld]; exact hlenNew, hlenNew, ?_, hsecond⟩
  intro r hr v hv
  have hr' : Ring.New dd.bufferSize = some r := hr
  unfold Ring.New at hr'
  by_cases h0 : dd.bufferSize ≤ 0
  · simp [h0] at hr'
  · simp only [h0, if_false, Option.some.injEq] at hr'
    rw [← hr'] at hv
    exact (List.mem_replicate.mp hv).2

/-- Witness of C8: a sink of capacity 4 that ingested one span is reachable; its flush
collects the span, leaves four nil elements, and the following flush makes no request. -/
theorem C8_drain_resets_witness :
    Reachable needIds sinkAfterOne ∧
    (sinkAfterOne.Flush needIds).ssfSpans.length = 1 ∧
    (sinkAfterOne.Flush needIds).sink.buffer = some ⟨[none, none, none, none], 0⟩ ∧
    ((sinkAfterOne.Flush needIds).sink.Flush needIds).ssfSpans = [] ∧
    ((sinkAfterOne.Flush needIds).sink.Flush needIds).request = none :=
  have hr : Reachable needIds sinkAfterOne :=
    Reachable.ingest (NewDatadogSpanSink "localhost:8126" 4 []) sinkAfterOne (spanWithId 1)
      none (Reachable.new "localhost:8126" 4 []) (by decide)
  ⟨hr, by decide, by decide, (C8_drain_resets needIds sinkAfterOne hr).2.2.2.2.1,
    (C8_drain_resets needIds sinkAfterOne hr).2.2.2.2.2.2.2.1⟩

/-! ## Metric finalization -/

/-- The magic-tag loop changes only host, device and tags; the tags grow by the sample
tags without a magic prefix, in order. -/
theorem foldl_magicTagStep {F : Type} (tags : List String) :
    ∀ d : DDMetric F,
      (tags.foldl magicTagStep d).Tags = d.Tags ++ tags.filter plainTag ∧
      (tags.foldl magicTagStep d).Name = d.Name ∧
      (tags.foldl magicTagStep d).Value = d.Value ∧
      (tags.foldl magicTagStep d).MetricType = d.MetricType ∧
      (tags.foldl magicTagStep d).Interval = d.Interval := by
  induction tags with
  | nil => intro d; simp
  | cons tag rest ih =>
    intro d
    simp only [List.foldl_cons]
    obtain ⟨h1, h2, h3, h4, h5⟩ := ih (magicTagStep d tag)
    rw [h1, h2, h3, h4, h5]
    unfold magicTagStep
    by_cases hh : HasPrefix tag "host:" = true
    · simp [hh, plainTag]
    · by_cases hd : HasPrefix tag "device:" = true
      · simp [hh, hd, plainTag]
      · simp [hh, hd, plainTag]

/-- One loop iteration appends to the batch what it yields on the empty batch. -/
theorem finalizeStep_append {F : Type} (env : MetricEnv F) (dd : DatadogMetricSink F)
    (acc : List (DDMetric F)) (m : InterMetric F) :
    finalizeStep env dd acc m = acc ++ finalizeStep env dd [] m := by
  unfold finalizeStep
  by_cases ha : env.IsAcceptableMetric m dd = true
  · simp only [ha, Bool.not_true, Bool.false_eq_true, if_false]
    cases typeSwitch env dd m with
    | none => simp
    | some p => simp
  · simp [ha]

theorem foldl_finalizeStep {F : Type} (env : MetricEnv F) (dd : DatadogMetricSink F)
    (metrics : List (InterMetric F)) :
    ∀ acc : List (DDMetric F),
      metrics.foldl (finalizeStep env dd) acc =
        acc ++ (metrics.map (finalizeStep env dd [])).flatten := by
  induction metrics with
  | nil => intro acc; simp
  | cons m rest ih =>
    intro acc
    rw [List.foldl_cons, ih, finalizeStep_append]
    simp [List.append_assoc]

/-- The finalized batch is the concatenation, in input order, of what each sample yields. -/
theorem finalizeMetrics_eq {F : Type} (env : MetricEnv F) (dd : DatadogMetricSink F)
    (metrics : List (InterMetric F)) :
    dd.finalizeMetrics env metrics = (metrics.map (finalizeStep env dd [])).flatten := by
  unfold DatadogMetricSink.finalizeMetrics
  rw [foldl_finalizeStep]
  simp

/-- What an iteration yields: nothing for a refused or unsupported sample, else one
record built from the sample and the sink. -/
theorem finalizeStep_nil {F : Type} (env : MetricEnv F) (dd : DatadogMetricSink F)
    (m : InterMetric F) :
    (env.IsAcceptableMetric m dd = false → finalizeStep env dd [] m = []) ∧
    (m.Typ = MetricType.unsupported → finalizeStep env dd [] m = []) ∧
    (env.IsAcceptableMetric m dd = true → m.Typ ≠ MetricType.unsupported →
      ∃ r, finalizeStep env dd [] m = [r] ∧ r.Name = m.Name ∧
        r.Value.1 = env.ops.ofInt64 m.Timestamp ∧
        r.Interval = env.ops.toInt32 dd.interval ∧
        r.Tags = dd.tags ++ m.Tags.filter plainTag ∧
        (m.Typ = MetricType.CounterMetric →
          r.MetricType = "rate" ∧ r.Value.2 = env.ops.div m.Value dd.interval) ∧
        (m.Typ = MetricType.GaugeMetric →
          r.MetricType = "gauge" ∧ r.Value.2 = m.Value)) := by
  refine ⟨fun h => by simp [finalizeStep, h], fun h => ?_, fun ha ht => ?_⟩
  · unfold finalizeStep typeSwitch
    rw [h]
    by_cases ha : env.IsAcceptableMetric m dd = true <;> simp [ha]
  · unfold finalizeStep typeSwitch
    simp only [ha, Bool.not_true, Bool.false_eq_true, if_false]
    cases hT : m.Typ with
    | unsupported => exact absurd hT ht
    | CounterMetric =>
      simp only [List.nil_append]
      refine ⟨_, rfl, ?_⟩
      split <;> simp [foldl_magicTagStep]
    | GaugeMetric =>
      simp only [List.nil_append]
      refine ⟨_, rfl, ?_⟩
      split <;> simp [foldl_magicTagStep]

theorem mem_finalizeMetrics {F : Type} (env : MetricEnv F) (dd : DatadogMetricSink F)
    (metrics : List (InterMetric F)) (r : DDMetric F) :
    r ∈ dd.finalizeMetrics env metrics ↔ ∃ m ∈ metrics, r ∈ finalizeStep env dd [] m := by
  rw [finalizeMetrics_eq]
  simp [List.mem_flatten]

/-! ## Claims on metric finalization -/

/-- C9 (rate conversion): for every sample of the batch that the acceptance predicate
accepts, `finalizeMetrics` emits a record with the name and timestamp of the sample;
for a Counter its type is "rate", its value is the sample value divided by the sink
interval, and its `Interval` is the interval; for a Gauge its type is "gauge" and
its value is the sample value.  Conversely every emitted record arises so. -/
theorem C9_rate_conversion {F : Type} (env : MetricEnv F) (dd : DatadogMetricSink F)
    (metrics : List (InterMetric F)) :
    (∀ m ∈ metrics, env.IsAcceptableMetric m dd = true →
      (m.Typ = MetricType.CounterMetric →
        ∃ r ∈ dd.finalizeMetrics env metrics, r.Name = m.Name ∧
          r.Value = (env.ops.ofInt64 m.Timestamp, env.ops.div m.Value dd.interval) ∧
          r.MetricType = "rate" ∧ r.Interval = env.ops.toInt32 dd.interval) ∧
      (m.Typ = MetricType.GaugeMetric →
        ∃ r ∈ dd.finalizeMetrics env metrics, r.Name = m.Name ∧
          r.Value = (env.ops.ofInt64 m.Timestamp, m.Value) ∧ r.MetricType = "gauge")) ∧
    (∀ r ∈ dd.finalizeMetrics env metrics, ∃ m ∈ metrics,
      env.IsAcceptableMetric m dd = true ∧ r.Name = m.Name ∧
      r.Value.1 = env.ops.ofInt64 m.Timestamp ∧
      ((m.Typ = MetricType.CounterMetric ∧ r.MetricType = "rate" ∧
          r.Value.2 = env.ops.div m.Value dd.interval) ∨
        (m.Typ = MetricType.GaugeMetric ∧ r.MetricType = "gauge" ∧ r.Value.2 = m.Value))) := by
  refine ⟨fun m hm ha => ⟨fun hc => ?_, fun hg => ?_⟩, fun r hr => ?_⟩
  · obtain ⟨r, hr, hn, hts, hi, _, hrate, _⟩ :=
      (finalizeStep_nil env dd m).2.2 ha (by rw [hc]; decide)
    refine ⟨r, (mem_finalizeMetrics env dd metrics r).2 ⟨m, hm, by rw [hr]; simp⟩, hn,
      ?_, (hrate hc).1, hi⟩
    exact Prod.ext hts (hrate hc).2
  · obtain ⟨r, hr, hn, hts, _, _, _, hgauge⟩ :=
      (finalizeStep_nil env dd m).2.2 ha (by rw [hg]; decide)
    refine ⟨r, (mem_finalizeMetrics env dd metrics r).2 ⟨m, hm, by rw [hr]; simp⟩, hn,
      ?_, (hgauge hg).1⟩
    exact Prod.ext hts (hgauge hg).2
  · obtain ⟨m, hm, hrm⟩ := (mem_finalizeMetrics env dd metrics r).1 hr
    have hstep := finalizeStep_nil env dd m
    have ha : env.IsAcceptableMetric m dd = true := by
      by_contra hna
      have hfalse : env.IsAcceptableMetric m dd = false := by simpa using hna
      rw [hstep.1 hfalse] at hrm
      cases hrm
    have ht : m.Typ ≠ MetricType.unsupported := by
      intro hu
      rw [hstep.2.1 hu] at hrm
      cases hrm
    obtain ⟨r', hr', hn, hts, _, _, hrate, hgauge⟩ := hstep.2.2 ha ht
    rw [hr', List.mem_singleton] at hrm
    subst hrm
    refine ⟨m, hm, ha, hn, hts, ?_⟩
    cases hT : m.Typ with
    | unsupported => exact absurd hT ht
    | CounterMetric => exact Or.inl ⟨rfl, hrate hT⟩
    | GaugeMetric => exact Or.inr ⟨rfl, hgauge hT⟩

/-- Witness of C9: a Counter of value 120 with interval 60 yields a record of value 2,
type "rate" and `Interval` 60. -/
theorem C9_rate_conversion_witness :
    counterSample ∈ [counterSample] ∧
    acceptAll.IsAcceptableMetric counterSample (sinkWithLimit 400) = true ∧
    counterSample.Typ = MetricType.CounterMetric ∧
    ∃ r ∈ (sinkWithLimit 400).finalizeMetrics acceptAll [counterSample],
      r.Name = "requests" ∧ r.Value = (1500000000, 2) ∧ r.MetricType = "rate" ∧
      r.Interval = 60 := by
  refine ⟨List.mem_singleton.2 rfl, rfl, rfl, ?_⟩
  obtain ⟨r, hr, hn, hv, ht, hi⟩ :=
    ((C9_rate_conversion acceptAll (sinkWithLimit 400) [counterSample]).1 counterSample
      (List.mem_singleton.2 rfl) rfl).1 rfl
  refine ⟨r, hr, hn, ?_, ht, ?_⟩
  · rw [hv]
    norm_num [acceptAll, ratOps, counterSample, sinkWithLimit]
  · rw [hi]
    norm_num [acceptAll, ratOps, sinkWithLimit]

/-! ## Host and device overrides -/

/-- A tag cannot have both magic prefixes. -/
theorem not_device_of_host (tag : String) (h : HasPrefix tag "host:" = true) :
    HasPrefix tag "device:" = false := by
  unfold HasPrefix at *
  have hh : "host:".toList = ['h', 'o', 's', 't', ':'] := rfl
  have hd : "device:".toList = ['d', 'e', 'v', 'i', 'c', 'e', ':'] := rfl
  rw [hh] at h
  rw [hd]
  cases htl : tag.toList with
  | nil => rfl
  | cons c cs =>
    rw [htl] at h
    simp only [List.isPrefixOf, Bool.and_eq_true, beq_iff_eq] at h
    have hc : c = 'h' := h.1.symm
    subst hc
    simp [List.isPrefixOf]

/-- The magic-tag loop leaves in `Hostname` the suffix of the last `host:` tag and in
`DeviceName` the suffix of the last `device:` tag, or what they held before. -/
theorem foldl_magicTagStep_overrides {F : Type} (tags : List String) (d : DDMetric F) :
    (tags.foldl magicTagStep d).Hostname =
      (match lastWithPrefix tags "host:" with
        | some tag => strFrom tag 5
        | none => d.Hostname) ∧
    (tags.foldl magicTagStep d).DeviceName =
      (match lastWithPrefix tags "device:" with
        | some tag => strFrom tag 7
        | none => d.DeviceName) := by
  induction tags using List.reverseRecOn with
  | nil => exact ⟨rfl, rfl⟩
  | append_singleton init tag ih =>
    obtain ⟨ih1, ih2⟩ := ih
    rw [List.foldl_append, List.foldl_cons, List.foldl_nil]
    unfold lastWithPrefix at *
    rw [List.filter_append, List.filter_append]
    by_cases hh : HasPrefix tag "host:" = true
    · have hd := not_device_of_host tag hh
      simp only [List.filter_cons, List.filter_nil, hh, hd, if_true, List.append_nil,
        List.getLast?_append, List.getLast?_singleton, magicTagStep, Bool.false_eq_true,
        if_false]
      refine ⟨by simp, ?_⟩
      simpa using ih2
    · by_cases hd : HasPrefix tag "device:" = true
      · simp only [List.filter_cons, List.filter_nil, hh, hd, if_true, List.append_nil,
          List.getLast?_append, List.getLast?_singleton, magicTagStep, if_false]
        refine ⟨?_, by simp⟩
        simpa using ih1
      · simp only [List.filter_cons, List.filter_nil, hh, hd, List.append_nil, magicTagStep,
          Bool.false_eq_true, if_false]
        exact ⟨ih1, ih2⟩

/-- The record of an accepted sample of a supported type: host and device fields. -/
theorem finalizeStep_overrides {F : Type} (env : MetricEnv F) (dd : DatadogMetricSink F)
    (m : InterMetric F) (ha : env.IsAcceptableMetric m dd = true)
    (ht : m.Typ ≠ MetricType.unsupported) :
    ∃ r, finalizeStep env dd [] m = [r] ∧
      r.Hostname =
        (match lastWithPrefix m.Tags "host:" with
          | some tag => if strFrom tag 5 = "" then dd.hostname else strFrom tag 5
          | none => dd.hostname) ∧
      r.DeviceName =
        (match lastWithPrefix m.Tags "device:" with
          | some tag => strFrom tag 7
          | none => "") := by
  unfold finalizeStep typeSwitch
  simp only [ha, Bool.not_true, Bool.false_eq_true, if_false, List.nil_append]
  cases hT : m.Typ with
  | unsupported => exact absurd hT ht
  | CounterMetric =>
    refine ⟨_, rfl, ?_⟩
    split
    · rename_i hempty
      rw [(foldl_magicTagStep_overrides m.Tags _).1] at hempty
      rw [(foldl_magicTagStep_overrides m.Tags _).2]
      refine ⟨?_, rfl⟩
      cases hl : lastWithPrefix m.Tags "host:" with
      | none => rfl
      | some tag =>
        rw [hl] at hempty
        simp only at hempty
        simp [hempty]
    · rename_i hne
      rw [(foldl_magicTagStep_overrides m.Tags _).1] at hne ⊢
      rw [(foldl_magicTagStep_overrides m.Tags _).2]
      refine ⟨?_, rfl⟩
      cases hl : lastWithPrefix m.Tags "host:" with
      | none => rw [hl] at hne; exact absurd rfl hne
      | some tag =>
        rw [hl] at hne
        simp only at hne
        simp [hne]
  | GaugeMetric =>
    refine ⟨_, rfl, ?_⟩
    split
    · rename_i hempty
      rw [(foldl_magicTagStep_overrides m.Tags _).1] at hempty
      rw [(foldl_magicTagStep_overrides m.Tags _).2]
      refine ⟨?_, rfl⟩
      cases hl : lastWithPrefix m.Tags "host:" with
      | none => rfl
      | some tag =>
        rw [hl] at hempty
        simp only at hempty
        simp [hempty]
    · rename_i hne
      rw [(foldl_magicTagStep_overrides m.Tags _).1] at hne ⊢
      rw [(foldl_magicTagStep_overrides m.Tags _).2]
      refine ⟨?_, rfl⟩
      cases hl : lastWithPrefix m.Tags "host:" with
      | none => rw [hl] at hne; exact absurd rfl hne
      | some tag =>
        rw [hl] at hne
        simp only at hne
        simp [hne]

/-- Every emitted record is the single record of an accepted sample of a supported type. -/
theorem source_of_record {F : Type} (env : MetricEnv F) (dd : DatadogMetricSink F)
    (metrics : List (InterMetric F)) (r : DDMetric F)
    (hr : r ∈ dd.finalizeMetrics env metrics) :
    ∃ m ∈ metrics, env.IsAcceptableMetric m dd = true ∧ m.Typ ≠ MetricType.unsupported ∧
      finalizeStep env dd [] m = [r] := by
  obtain ⟨m, hm, hrm⟩ := (mem_finalizeMetrics env dd metrics r).1 hr
  have hstep := finalizeStep_nil env dd m
  have ha : env.IsAcceptableMetric m dd = true := by
    by_contra hna
    have hfalse : env.IsAcceptableMetric m dd = false := by simpa using hna
    rw [hstep.1 hfalse] at hrm
    cases hrm
  have ht : m.Typ ≠ MetricType.unsupported := by
    intro hu
    rw [hstep.2.1 hu] at hrm
    cases hrm
  obtain ⟨r', hr', _⟩ := hstep.2.2 ha ht
  rw [hr', List.mem_singleton] at hrm
  subst hrm
  exact ⟨m, hm, ha, ht, hr'⟩

/-! ## Claims on host, device, interval and filtering -/

/-- C11 (host override) at samples whose last "host:" tag is the bare prefix: the
sample has a tag with the prefix "host:", of empty suffix, yet `finalizeMetrics`
gives its record the hostname of the sink, as if the sample had no such tag; so for
the tags "host:" and for the tags "host:a", "host:". -/
theorem C11_bare_host_tag_falls_back :
    bareHostSample.Tags = ["host:"] ∧ hostThenBareSample.Tags = ["host:a", "host:"] ∧
    HasPrefix "host:" "host:" = true ∧ strFrom "host:" 5 = "" ∧
    ((sinkWithLimit 400).finalizeMetrics acceptAll [bareHostSample]).map
      (fun r => r.Hostname) = ["localhost"] ∧
    ((sinkWithLimit 400).finalizeMetrics acceptAll [hostThenBareSample]).map
      (fun r => r.Hostname) = ["localhost"] := by
  decide

/-- The host and device fields that `finalizeMetrics` computes: the `Hostname` of every
emitted record is the suffix of the last "host:" tag of its sample when that suffix
is not empty, and the hostname of the sink otherwise; its `DeviceName` is the suffix
of the last "device:" tag of the sample, and empty when there is none. -/
theorem host_device_of_record {F : Type} (env : MetricEnv F) (dd : DatadogMetricSink F)
    (metrics : List (InterMetric F)) :
    ∀ r ∈ dd.finalizeMetrics env metrics, ∃ m ∈ metrics, finalizeStep env dd [] m = [r] ∧
      r.Hostname =
        (match lastWithPrefix m.Tags "host:" with
          | some tag => if strFrom tag 5 = "" then dd.hostname else strFrom tag 5
          | none => dd.hostname) ∧
      r.DeviceName =
        (match lastWithPrefix m.Tags "device:" with
          | some tag => strFrom tag 7
          | none => "") := by
  intro r hr
  obtain ⟨m, hm, ha, ht, hstep⟩ := source_of_record env dd metrics r hr
  obtain ⟨r', hr', hh, hd⟩ := finalizeStep_overrides env dd m ha ht
  rw [hstep] at hr'
  injection hr' with hr' _
  subst hr'
  exact ⟨m, hm, hstep, hh, hd⟩

/-- The tags "host:web-1", "device:eth0", "env:prod" give host "web-1" and device
"eth0". -/
theorem host_device_of_record_example :
    ((sinkWithLimit 400).finalizeMetrics acceptAll [magicSample]).length = 1 ∧
    ∀ r ∈ (sinkWithLimit 400).finalizeMetrics acceptAll [magicSample],
      r.Hostname = "web-1" ∧ r.DeviceName = "eth0" := by
  refine ⟨by decide, fun r hr => ?_⟩
  obtain ⟨m, hm, _, hh, hd⟩ :=
    host_device_of_record acceptAll (sinkWithLimit 400) [magicSample] r hr
  rw [List.mem_singleton] at hm
  subst hm
  exact ⟨by rw [hh]; decide, by rw [hd]; decide⟩

/-- C12 as stated fails: with a sink interval of 60 a Gauge sample yields a record of
type "gauge" whose `Interval` is 60. -/
theorem C12_gauge_interval_counterexample :
    ((sinkWithLimit 400).finalizeMetrics acceptAll [gaugeSample "a"]).map
      (fun r => (r.MetricType, r.Interval)) = [("gauge", 60)] := by
  decide

/-- C12 (interval), amended: every record emitted by `finalizeMetrics`, of type "rate"
or of type "gauge" alike, carries in `Interval` the sink interval converted to
`int32`. -/
theorem C12_interval_on_every_record {F : Type} (env : MetricEnv F)
    (dd : DatadogMetricSink F) (metrics : List (InterMetric F)) :
    ∀ r ∈ dd.finalizeMetrics env metrics,
      r.Interval = env.ops.toInt32 dd.interval ∧
      (r.MetricType = "rate" ∨ r.MetricType = "gauge") := by
  intro r hr
  obtain ⟨m, _, ha, ht, hstep⟩ := source_of_record env dd metrics r hr
  obtain ⟨r', hr', _, _, hi, _, hrate, hgauge⟩ := (finalizeStep_nil env dd m).2.2 ha ht
  rw [hstep] at hr'
  injection hr' with hr' _
  subst hr'
  refine ⟨hi, ?_⟩
  cases hT : m.Typ with
  | unsupported => exact absurd hT ht
  | CounterMetric => exact Or.inl (hrate hT).1
  | GaugeMetric => exact Or.inr (hgauge hT).1

/-- Witness of C12: a Counter and a Gauge sample both yield `Interval` 60. -/
theorem C12_interval_on_every_record_witness :
    ((sinkWithLimit 400).finalizeMetrics acceptAll [counterSample, gaugeSample "a"]).length
      = 2 ∧
    ∀ r ∈ (sinkWithLimit 400).finalizeMetrics acceptAll [counterSample, gaugeSample "a"],
      r.Interval = 60 := by
  refine ⟨by decide, fun r hr => ?_⟩
  rw [(C12_interval_on_every_record acceptAll (sinkWithLimit 400)
    [counterSample, gaugeSample "a"] r hr).1]
  decide

/-- C13 (filtering and order): the records `finalizeMetrics` emits correspond one to
one, in input order, to the samples that the acceptance predicate accepts and whose
type is Counter or Gauge; every other sample yields nothing and does not stop the
loop; so the output has as many records as there are such samples. -/
theorem C13_filtering_and_order {F : Type} (env : MetricEnv F) (dd : DatadogMetricSink F)
    (metrics : List (InterMetric F)) :
    List.Forall₂
      (fun m r => finalizeStep env dd [] m = [r] ∧ r.Name = m.Name ∧
        r.Value.1 = env.ops.ofInt64 m.Timestamp)
      (metrics.filter (emitsRecord env dd)) (dd.finalizeMetrics env metrics) ∧
    (dd.finalizeMetrics env metrics).length = (metrics.filter (emitsRecord env dd)).length ∧
    (∀ m ∈ metrics, emitsRecord env dd m = false → finalizeStep env dd [] m = []) := by
  have hskip : ∀ m : InterMetric F, emitsRecord env dd m = false →
      finalizeStep env dd [] m = [] := by
    intro m hm
    unfold emitsRecord at hm
    by_cases ha : env.IsAcceptableMetric m dd = true
    · have ht : m.Typ = MetricType.unsupported := by simpa [ha] using hm
      exact (finalizeStep_nil env dd m).2.1 ht
    · exact (finalizeStep_nil env dd m).1 (by simpa using ha)
  have hall : List.Forall₂
      (fun m r => finalizeStep env dd [] m = [r] ∧ r.Name = m.Name ∧
        r.Value.1 = env.ops.ofInt64 m.Timestamp)
      (metrics.filter (emitsRecord env dd)) (dd.finalizeMetrics env metrics) := by
    rw [finalizeMetrics_eq]
    induction metrics with
    | nil => exact List.Forall₂.nil
    | cons m rest ih =>
      rw [List.map_cons, List.flatten_cons, List.filter_cons]
      by_cases hm : emitsRecord env dd m = true
      · rw [if_pos hm]
        unfold emitsRecord at hm
        have ha : env.IsAcceptableMetric m dd = true := by
          simp only [Bool.and_eq_true] at hm; exact hm.1
        have ht : m.Typ ≠ MetricType.unsupported := by
          simp only [Bool.and_eq_true, decide_eq_true_eq] at hm; exact hm.2
        obtain ⟨r, hr, hn, hts, _⟩ := (finalizeStep_nil env dd m).2.2 ha ht
        rw [hr]
        exact List.Forall₂.cons ⟨hr, hn, hts⟩ ih
      · rw [if_neg hm, hskip m (by simpa using hm)]
        exact ih
  exact ⟨hall, hall.length_eq.symm, fun m _ hm => hskip m hm⟩

/-- Witness of C13: of a gauge, an unsupported sample and a second gauge, the two
gauges yield records, in that order. -/
theorem C13_filtering_and_order_witness :
    unsupportedSample ∈ [gaugeSample "a", unsupportedSample, gaugeSample "b"] ∧
    emitsRecord acceptAll (sinkWithLimit 400) unsupportedSample = false ∧
    finalizeStep acceptAll (sinkWithLimit 400) [] unsupportedSample = [] ∧
    ((sinkWithLimit 400).finalizeMetrics acceptAll
      [gaugeSample "a", unsupportedSample, gaugeSample "b"]).map (fun r => r.Name)
      = ["a", "b"] :=
  ⟨List.mem_cons_of_mem _ (List.mem_cons_self _ _), by decide,
    (C13_filtering_and_order acceptAll (sinkWithLimit 400)
      [gaugeSample "a", unsupportedSample, gaugeSample "b"]).2.2 unsupportedSample
      (List.mem_cons_of_mem _ (List.mem_cons_self _ _)) (by decide),
    by decide⟩

/-! ## Claim on the slice bounds -/

/-- C18 (slices in range, no empty chunk): for a non-empty finalized batch of `N`
records and a positive `flushMaxPerBody`, with `W` workers and chunk size `C` as
`Flush` computes them, every chunk start `i * C` with `i < W` is below `N` and
`(i + 1) * C ≤ N` for `i < W - 1`; the run has no fault, dispatches `W` chunks, and
none of them is empty. -/
theorem C18_slices_in_range {F : Type} (env : MetricEnv F) (dd : DatadogMetricSink F)
    (interMetrics : List (InterMetric F)) (hf : 0 < dd.flushMaxPerBody)
    (hne : dd.finalizeMetrics env interMetrics ≠ []) :
    ∃ W C : Nat,
      workersOf (dd.finalizeMetrics env interMetrics).length dd.flushMaxPerBody
        = .ok (W : Int) ∧
      chunkSizeOf (dd.finalizeMetrics env interMetrics).length (W : Int) = .ok (C : Int) ∧
      (∀ i, i < W → i * C < (dd.finalizeMetrics env interMetrics).length) ∧
      (∀ i, i + 1 < W → (i + 1) * C ≤ (dd.finalizeMetrics env interMetrics).length) ∧
      (dd.Flush env interMetrics).fault = none ∧
      (dd.Flush env interMetrics).dispatched.length = W ∧
      ∀ chunk ∈ (dd.Flush env interMetrics).dispatched, chunk ≠ [] := by
  unfold DatadogMetricSink.Flush
  generalize dd.finalizeMetrics env interMetrics = xs at hne
  generalize dd.flushMaxPerBody = f at hf
  obtain ⟨fn, rfl⟩ : ∃ fn : Nat, f = (fn : Int) := ⟨f.toNat, (Int.toNat_of_nonneg hf.le).symm⟩
  have hfn : 0 < fn := by exact_mod_cast hf
  have hpos : 0 < xs.length := List.length_pos.mpr hne
  obtain ⟨n, hn⟩ : ∃ n, xs.length = n + 1 := ⟨xs.length - 1, by omega⟩
  have hstart := chunk_start_lt n fn hfn
  have hbound : ∀ i, i < n / fn + 1 → i * (n / (n / fn + 1) + 1) < n + 1 := by
    intro i hi
    have : i * (n / (n / fn + 1) + 1) ≤ (n / fn) * (n / (n / fn + 1) + 1) :=
      Nat.mul_le_mul_right _ (by omega)
    omega
  refine ⟨n / fn + 1, n / (n / fn + 1) + 1, ?_, ?_, ?_, ?_, ?_, ?_, ?_⟩
  · rw [hn]; exact workersOf_succ n fn hfn
  · rw [hn]; exact chunkSizeOf_succ n _ (Nat.succ_pos _)
  · intro i hi
    rw [hn]; exact hbound i hi
  · intro i hi
    rw [hn]
    have : (i + 1) * (n / (n / fn + 1) + 1) ≤ (n / fn) * (n / (n / fn + 1) + 1) :=
      Nat.mul_le_mul_right _ (by omega)
    omega
  · rw [flushChunks_nonempty xs n fn hn hfn]
  · rw [flushChunks_nonempty xs n fn hn hfn]
    simp
  · rw [flushChunks_nonempty xs n fn hn hfn]
    intro chunk hc
    simp only [List.mem_map, List.mem_range] at hc
    obtain ⟨j, hj, rfl⟩ := hc
    have hjb := hbound j hj
    intro hnil
    have hlen : (chunkOf xs (n / fn + 1) (n / (n / fn + 1) + 1) j).length = 0 := by
      rw [hnil]; rfl
    unfold chunkOf at hlen
    by_cases hlast : j + 1 < n / fn + 1
    · rw [if_pos hlast, List.length_take, List.length_drop, hn] at hlen
      have h1 : 1 ≤ n / (n / fn + 1) + 1 := Nat.succ_pos _
      have h2 : 1 ≤ n + 1 - j * (n / (n / fn + 1) + 1) := by omega
      have h3 := Nat.le_min.2 ⟨h1, h2⟩
      rw [hlen] at h3
      exact absurd h3 (by decide)
    · rw [if_neg hlast, List.length_drop, hn] at hlen
      omega

/-- Witness of C18: three records with limit two go out as two non-empty chunks. -/
theorem C18_slices_in_range_witness :
    0 < (sinkWithLimit 2).flushMaxPerBody ∧
    (sinkWithLimit 2).finalizeMetrics acceptAll threeGauges ≠ [] ∧
    ((sinkWithLimit 2).Flush acceptAll threeGauges).dispatched.map List.length = [2, 1] ∧
    ∃ W C : Nat,
      workersOf ((sinkWithLimit 2).finalizeMetrics acceptAll threeGauges).length
        (sinkWithLimit 2).flushMaxPerBody = .ok (W : Int) ∧
      chunkSizeOf ((sinkWithLimit 2).finalizeMetrics acceptAll threeGauges).length (W : Int)
        = .ok (C : Int) ∧
      ((sinkWithLimit 2).Flush acceptAll threeGauges).fault = none := by
  have hne : (sinkWithLimit 2).finalizeMetrics acceptAll threeGauges ≠ [] := by
    intro h
    have hl : ((sinkWithLimit 2).finalizeMetrics acceptAll threeGauges).length = 0 := by
      rw [h]; rfl
    revert hl
    decide
  obtain ⟨W, C, h1, h2, _, _, h5, _, _⟩ :=
    C18_slices_in_range acceptAll (sinkWithLimit 2) threeGauges (by decide) hne
  exact ⟨by decide, hne, by decide, W, C, h1, h2, h5⟩

/-! ## The trace map -/

theorem groupOf_appendTrace (tm : List (Int × List DatadogTraceSpan)) (id : Int)
    (d : DatadogTraceSpan) (t : Int) :
    groupOf (appendTrace tm id d) t =
      if t = id then groupOf tm id ++ [d] else groupOf tm t := by
  induction tm with
  | nil =>
    by_cases h : t = id
    · simp [appendTrace, groupOf, h]
    · have h' : ¬ id = t := fun e => h e.symm
      simp [appendTrace, groupOf, h, h']
  | cons kv rest ih =>
    obtain ⟨k, g⟩ := kv
    by_cases hk : k = id
    · subst hk
      by_cases h : t = k
      · subst h; simp [appendTrace, groupOf]
      · have h' : ¬ k = t := fun e => h e.symm
        simp [appendTrace, groupOf, h, h']
    · by_cases h : t = id
      · subst h
        simp [appendTrace, groupOf, hk, ih]
      · by_cases hkt : k = t
        · simp [appendTrace, groupOf, hk, hkt, h]
        · simp [appendTrace, groupOf, hk, hkt, h, ih]

theorem keys_appendTrace (tm : List (Int × List DatadogTraceSpan)) (id : Int)
    (d : DatadogTraceSpan) :
    (appendTrace tm id d).map Prod.fst =
      if id ∈ tm.map Prod.fst then tm.map Prod.fst else tm.map Prod.fst ++ [id] := by
  induction tm with
  | nil => simp [appendTrace]
  | cons kv rest ih =>
    obtain ⟨k, g⟩ := kv
    by_cases hk : k = id
    · subst hk; simp [appendTrace]
    · have hk' : ¬ id = k := fun e => hk e.symm
      simp only [appendTrace, hk, if_false, List.map_cons, ih, List.mem_cons, hk', false_or]
      split <;> simp

theorem sizes_appendTrace (tm : List (Int × List DatadogTraceSpan)) (id : Int)
    (d : DatadogTraceSpan) :
    ((appendTrace tm id d).map (fun kv => kv.2.length)).sum =
      (tm.map (fun kv => kv.2.length)).sum + 1 := by
  induction tm with
  | nil => simp [appendTrace]
  | cons kv rest ih =>
    obtain ⟨k, g⟩ := kv
    by_cases hk : k = id
    · simp [appendTrace, hk]; omega
    · simp [appendTrace, hk, ih]; omega

theorem nonempty_appendTrace (tm : List (Int × List DatadogTraceSpan)) (id : Int)
    (d : DatadogTraceSpan) (h : ∀ kv ∈ tm, kv.2 ≠ []) :
    ∀ kv ∈ appendTrace tm id d, kv.2 ≠ [] := by
  induction tm with
  | nil =>
    intro kv hkv
    simp only [appendTrace, List.mem_singleton] at hkv
    subst hkv; simp
  | cons kv0 rest ih =>
    obtain ⟨k, g⟩ := kv0
    intro kv hkv
    have hrest : ∀ kv ∈ rest, kv.2 ≠ [] := fun kv hm => h kv (List.mem_cons_of_mem _ hm)
    by_cases hk : k = id
    · simp only [appendTrace, hk, if_true, List.mem_cons] at hkv
      rcases hkv with hkv | hkv
      · subst hkv; simp
      · exact hrest kv hkv
    · simp only [appendTrace, hk, if_false, List.mem_cons] at hkv
      rcases hkv with hkv | hkv
      · subst hkv; exact h (k, g) (List.mem_cons_self _ _)
      · exact ih hrest kv hkv

/-- With distinct keys, the group listed under a key is the group looked up. -/
theorem groupOf_of_mem (tm : List (Int × List DatadogTraceSpan))
    (hnd : (tm.map Prod.fst).Nodup) (t : Int) (g : List DatadogTraceSpan)
    (h : (t, g) ∈ tm) : groupOf tm t = g := by
  induction tm with
  | nil => cases h
  | cons kv rest ih =>
    obtain ⟨k, g0⟩ := kv
    rw [List.map_cons, List.nodup_cons] at hnd
    rcases List.mem_cons.mp h with h | h
    · injection h with h1 h2
      subst h1; subst h2
      simp [groupOf]
    · have hk : k ≠ t := by
        intro e
        subst e
        exact hnd.1 (List.mem_map.mpr ⟨(k, g), h, rfl⟩)
      simp only [groupOf, hk, if_false]
      exact ih hnd.2 h

theorem snd_foldl_traceStep (spans : List SSFSpan) :
    ∀ acc : List (String × Int) × List (Int × List DatadogTraceSpan),
      (spans.foldl traceStep acc).2 =
        spans.foldl (fun tm s => appendTrace tm s.TraceId (toDatadogSpan s)) acc.2 := by
  induction spans with
  | nil => intro acc; rfl
  | cons s rest ih => intro acc; simp only [List.foldl_cons, ih]; rfl

/-- The trace map after the grouping loop ran over `spans`, started on `tm`. -/
theorem foldl_appendTrace (spans : List SSFSpan) :
    ∀ tm : List (Int × List DatadogTraceSpan),
      (tm.map Prod.fst).Nodup → (∀ kv ∈ tm, kv.2 ≠ []) →
      (∀ t, groupOf (spans.foldl
          (fun tm s => appendTrace tm s.TraceId (toDatadogSpan s)) tm) t =
        groupOf tm t ++ (spans.filter (fun s => s.TraceId = t)).map toDatadogSpan) ∧
      ((spans.foldl (fun tm s => appendTrace tm s.TraceId (toDatadogSpan s)) tm).map
        Prod.fst).Nodup ∧
      (∀ t, t ∈ (spans.foldl (fun tm s => appendTrace tm s.TraceId (toDatadogSpan s)) tm).map
          Prod.fst ↔ t ∈ tm.map Prod.fst ∨ t ∈ spans.map (fun s => s.TraceId)) ∧
      (((spans.foldl (fun tm s => appendTrace tm s.TraceId (toDatadogSpan s)) tm).map
        (fun kv => kv.2.length)).sum = (tm.map (fun kv => kv.2.length)).sum + spans.length) ∧
      (∀ kv ∈ spans.foldl (fun tm s => appendTrace tm s.TraceId (toDatadogSpan s)) tm,
        kv.2 ≠ []) := by
  induction spans with
  | nil =>
    intro tm hnd hne
    exact ⟨fun t => by simp, hnd, fun t => by simp, by simp, hne⟩
  | cons s rest ih =>
    intro tm hnd hne
    have hnd1 : ((appendTrace tm s.TraceId (toDatadogSpan s)).map Prod.fst).Nodup := by
      rw [keys_appendTrace]
      split
      · exact hnd
      · rename_i hnot
        exact List.Nodup.append hnd (List.nodup_singleton _)
          (by
            intro a ha hb
            rw [List.mem_singleton] at hb
            subst hb
            exact hnot ha)
    have hne1 := nonempty_appendTrace tm s.TraceId (toDatadogSpan s) hne
    obtain ⟨h1, h2, h3, h4, h5⟩ := ih (appendTrace tm s.TraceId (toDatadogSpan s)) hnd1 hne1
    simp only [List.foldl_cons]
    refine ⟨fun t => ?_, h2, fun t => ?_, ?_, h5⟩
    · rw [h1 t, groupOf_appendTrace, List.filter_cons]
      by_cases ht : t = s.TraceId
      · subst ht
        simp
      · have ht' : ¬ s.TraceId = t := fun e => ht e.symm
        simp [ht, ht']
    · rw [h3 t, keys_appendTrace]
      by_cases hin : s.TraceId ∈ tm.map Prod.fst
      · rw [if_pos hin]
        simp only [List.map_cons, List.mem_cons]
        constructor
        · rintro (h | h)
          · exact Or.inl h
          · exact Or.inr (Or.inr h)
        · rintro (h | h | h)
          · exact Or.inl h
          · exact Or.inl (h ▸ hin)
          · exact Or.inr h
      · rw [if_neg hin]
        simp only [List.map_cons, List.mem_cons, List.mem_append, List.mem_singleton]
        tauto
    · rw [h4, sizes_appendTrace, List.length_cons]
      omega

/-- The outputs of a span flush in terms of the collected spans. -/
theorem outputs_Flush (env : SpanEnv) (dd : DatadogSpanSink) :
    (dd.Flush env).traceMap =
      (dd.Flush env).ssfSpans.foldl
        (fun tm s => appendTrace tm s.TraceId (toDatadogSpan s)) [] ∧
    (dd.Flush env).finalTraces = (dd.Flush env).traceMap.map Prod.snd ∧
    (dd.Flush env).request =
      (if (dd.Flush env).finalTraces.length ≠ 0 then some (dd.Flush env).finalTraces
        else none) := by
  unfold DatadogSpanSink.Flush
  dsimp only
  split
  · rename_i h
    refine ⟨snd_foldl_traceStep _ _, rfl, ?_⟩
    dsimp only
  · rename_i h
    refine ⟨snd_foldl_traceStep _ _, rfl, ?_⟩
    dsimp only

/-! ## Claim on trace grouping -/

/-- C14 (trace grouping): in every run of the span sink's `Flush`, the keys of the
trace map are exactly the trace ids of the collected spans, each key once; the group
under a key holds the wire spans converted from the collected spans of that trace id,
in their order, is not empty, and all its spans carry that trace id; the group sizes
add up to the number of collected spans; and the final array has one inner array per
distinct trace id. -/
theorem C14_trace_grouping (env : SpanEnv) (dd : DatadogSpanSink) :
    (∀ t, t ∈ (dd.Flush env).traceMap.map Prod.fst ↔
      t ∈ (dd.Flush env).ssfSpans.map (fun s => s.TraceId)) ∧
    ((dd.Flush env).traceMap.map Prod.fst).Nodup ∧
    (∀ kv ∈ (dd.Flush env).traceMap,
      kv.2 = ((dd.Flush env).ssfSpans.filter (fun s => s.TraceId = kv.1)).map toDatadogSpan ∧
      kv.2 ≠ [] ∧ ∀ w ∈ kv.2, w.TraceID = kv.1) ∧
    ((dd.Flush env).traceMap.map (fun kv => kv.2.length)).sum =
      (dd.Flush env).ssfSpans.length ∧
    (dd.Flush env).finalTraces = (dd.Flush env).traceMap.map Prod.snd ∧
    (dd.Flush env).finalTraces.length =
      ((dd.Flush env).ssfSpans.map (fun s => s.TraceId)).dedup.length := by
  obtain ⟨htm, hft, _⟩ := outputs_Flush env dd
  obtain ⟨h1, h2, h3, h4, h5⟩ :=
    foldl_appendTrace (dd.Flush env).ssfSpans [] List.nodup_nil (fun kv hkv => by cases hkv)
  rw [← htm] at h1 h2 h3 h4 h5
  have hkeys : ∀ t, t ∈ (dd.Flush env).traceMap.map Prod.fst ↔
      t ∈ (dd.Flush env).ssfSpans.map (fun s => s.TraceId) := by
    intro t
    rw [h3 t]
    simp
  refine ⟨hkeys, h2, ?_, ?_, hft, ?_⟩
  · intro kv hkv
    obtain ⟨t, g⟩ := kv
    have hg := groupOf_of_mem _ h2 t g hkv
    rw [h1 t] at hg
    simp only [groupOf, List.nil_append] at hg
    refine ⟨hg.symm, h5 (t, g) hkv, ?_⟩
    intro w hw
    simp only at hw
    rw [← hg] at hw
    obtain ⟨s, hs, rfl⟩ := List.mem_map.mp hw
    have := (List.mem_filter.mp hs).2
    simpa [toDatadogSpan] using this
  · simpa using h4
  · rw [hft, List.length_map, ← List.length_map (dd.Flush env).traceMap Prod.fst]
    apply List.Perm.length_eq
    rw [List.perm_ext_iff_of_nodup h2 (List.nodup_dedup _)]
    intro t
    rw [hkeys t, List.mem_dedup]

/-- Witness of C14: spans of trace ids 5, 5, 9 give two groups, trace 5 with two wire
spans and trace 9 with one. -/
theorem C14_trace_grouping_witness :
    (sinkWithThree.Flush needIds).ssfSpans.map (fun s => s.TraceId) = [5, 5, 9] ∧
    (sinkWithThree.Flush needIds).traceMap.map (fun kv => (kv.1, kv.2.length))
      = [(5, 2), (9, 1)] ∧
    (sinkWithThree.Flush needIds).finalTraces.length = 2 := by
  refine ⟨by decide, by decide, ?_⟩
  rw [(C14_trace_grouping needIds sinkWithThree).2.2.2.2.2]
  decide

/-! ## Tag maps -/

theorem get_set (m : TagMap) (k v k' : String) :
    (m.set k v).get k' = if k' = k then some v else m.get k' := by
  induction m with
  | nil =>
    by_cases h : k' = k
    · simp [TagMap.set, TagMap.get, h]
    · have h' : ¬ k = k' := fun e => h e.symm
      simp [TagMap.set, TagMap.get, h, h']
  | cons kv rest ih =>
    obtain ⟨a, b⟩ := kv
    by_cases ha : a = k
    · subst ha
      by_cases h : k' = a
      · subst h; simp [TagMap.set, TagMap.get]
      · have h' : ¬ a = k' := fun e => h e.symm
        simp [TagMap.set, TagMap.get, h, h']
    · by_cases hak : a = k'
      · subst hak
        have h' : ¬ a = k := ha
        simp [TagMap.set, TagMap.get, ha]
      · simp [TagMap.set, TagMap.get, ha, hak, ih]

theorem set_of_not_mem (m : TagMap) (k v : String) (h : k ∉ m.map Prod.fst) :
    m.set k v = m ++ [(k, v)] := by
  induction m with
  | nil => rfl
  | cons kv rest ih =>
    obtain ⟨a, b⟩ := kv
    simp only [List.map_cons, List.mem_cons, not_or] at h
    have ha : ¬ a = k := fun e => h.1 e.symm
    simp [TagMap.set, ha, ih h.2]

theorem keys_set (m : TagMap) (k v : String) :
    (m.set k v).map Prod.fst =
      if k ∈ m.map Prod.fst then m.map Prod.fst else m.map Prod.fst ++ [k] := by
  induction m with
  | nil => simp [TagMap.set]
  | cons kv rest ih =>
    obtain ⟨a, b⟩ := kv
    by_cases ha : a = k
    · subst ha; simp [TagMap.set]
    · have ha' : ¬ k = a := fun e => ha e.symm
      simp only [TagMap.set, ha, if_false, List.map_cons, ih, List.mem_cons, ha', false_or]
      split <;> simp

theorem nodup_keys_set (m : TagMap) (k v : String) (h : (m.map Prod.fst).Nodup) :
    ((m.set k v).map Prod.fst).Nodup := by
  rw [keys_set]
  split
  · exact h
  · rename_i hnot
    exact List.Nodup.append h (List.nodup_singleton _)
      (by
        intro a ha hb
        rw [List.mem_singleton] at hb
        subst hb
        exact hnot ha)

theorem get_delete (m : TagMap) (r k : String) :
    (m.delete r).get k = if k = r then none else m.get k := by
  induction m with
  | nil => simp [TagMap.delete, TagMap.get]
  | cons kv rest ih =>
    obtain ⟨a, b⟩ := kv
    unfold TagMap.delete at ih ⊢
    by_cases ha : a = r
    · subst ha
      by_cases hk : k = a
      · subst hk
        simpa [List.filter_cons, TagMap.get] using ih
      · have hk' : ¬ a = k := fun e => hk e.symm
        simp only [List.filter_cons, ne_eq, not_true_eq_false, decide_False,
          Bool.false_eq_true, if_false, ih, hk, TagMap.get, hk']
    · by_cases hk : a = k
      · subst hk
        simp [List.filter_cons, ha, TagMap.get]
      · simp only [List.filter_cons, ne_eq, ha, not_false_eq_true, decide_True, if_true,
          TagMap.get, hk, if_false, ih]

/-- Copying a map with distinct keys entry by entry gives the same entries. -/
theorem foldl_set_copy (l : TagMap) :
    ∀ acc : TagMap, ((acc ++ l).map Prod.fst).Nodup →
      l.foldl (fun m kv => m.set kv.1 kv.2) acc = acc ++ l := by
  induction l with
  | nil => intro acc _; simp
  | cons kv rest ih =>
    intro acc hnd
    obtain ⟨a, b⟩ := kv
    have hnot : a ∉ acc.map Prod.fst := by
      intro hin
      rw [List.map_append, List.nodup_append] at hnd
      exact hnd.2.2 hin (by simp)
    rw [List.foldl_cons, set_of_not_mem acc a b hnot, ih (acc ++ [(a, b)]) (by simpa using hnd)]
    simp

/-- Assigning the common tags keeps the keys distinct, gives every common tag its
value, and leaves the other keys as they were. -/
theorem foldl_set_common (common : TagMap) :
    ∀ m : TagMap, (m.map Prod.fst).Nodup →
      ((common.foldl (fun m kv => m.set kv.1 kv.2) m).map Prod.fst).Nodup ∧
      (∀ k, k ∉ common.map Prod.fst →
        (common.foldl (fun m kv => m.set kv.1 kv.2) m).get k = m.get k) ∧
      ((common.map Prod.fst).Nodup → ∀ kv ∈ common,
        (common.foldl (fun m kv => m.set kv.1 kv.2) m).get kv.1 = some kv.2) := by
  induction common with
  | nil =>
    intro m hnd
    exact ⟨hnd, fun k _ => rfl, fun _ kv hkv => by cases hkv⟩
  | cons c rest ih =>
    intro m hnd
    obtain ⟨a, b⟩ := c
    obtain ⟨h1, h2, h3⟩ := ih (m.set a b) (nodup_keys_set m a b hnd)
    simp only [List.foldl_cons]
    refine ⟨h1, fun k hk => ?_, fun hcn kv hkv => ?_⟩
    · simp only [List.map_cons, List.mem_cons, not_or] at hk
      rw [h2 k hk.2, get_set, if_neg hk.1]
    · rw [List.map_cons, List.nodup_cons] at hcn
      rcases List.mem_cons.mp hkv with hkv | hkv
      · subst hkv
        rw [h2 a hcn.1, get_set, if_pos rfl]
      · exact h3 hcn.2 kv hkv

/-! ## Wire spans -/

/-- The collected spans are the ring spans with the common tags assigned. -/
theorem ssfSpans_eq_map (env : SpanEnv) (dd : DatadogSpanSink) :
    (dd.Flush env).ssfSpans = (ringSpans dd).map (addCommonTags dd.commonTags) :=
  ssfSpans_Flush env dd

/-- Every collected span is converted into the group of its trace id, and every wire
span of the final array is the conversion of a collected span. -/
theorem wire_spans_Flush (env : SpanEnv) (dd : DatadogSpanSink) :
    (∀ s ∈ (dd.Flush env).ssfSpans,
      toDatadogSpan s ∈ groupOf (dd.Flush env).traceMap s.TraceId) ∧
    (∀ group ∈ (dd.Flush env).finalTraces, ∀ w ∈ group,
      ∃ s ∈ (dd.Flush env).ssfSpans, w = toDatadogSpan s) := by
  obtain ⟨htm, hft, _⟩ := outputs_Flush env dd
  obtain ⟨h1, h2, _, _, _⟩ :=
    foldl_appendTrace (dd.Flush env).ssfSpans [] List.nodup_nil (fun kv hkv => by cases hkv)
  rw [← htm] at h1 h2
  constructor
  · intro s hs
    rw [h1 s.TraceId]
    simp only [groupOf, List.nil_append]
    exact List.mem_map.mpr ⟨s, List.mem_filter.mpr ⟨hs, by simp⟩, rfl⟩
  · intro group hg w hw
    rw [hft] at hg
    obtain ⟨kv, hkv, rfl⟩ := List.mem_map.mp hg
    obtain ⟨t, g⟩ := kv
    have hgo := groupOf_of_mem _ h2 t g hkv
    rw [h1 t] at hgo
    simp only [groupOf, List.nil_append] at hgo
    simp only at hw
    rw [← hgo] at hw
    obtain ⟨s, hs, rfl⟩ := List.mem_map.mp hw
    exact ⟨s, (List.mem_filter.mp hs).1, rfl⟩

/-- The tags of a span after the common tags were assigned. -/
theorem tags_addCommonTags (common : TagMap) (s : SSFSpan) (hwf : WellFormedTags s) :
    ∃ m : TagMap, (addCommonTags common s).Tags = some m ∧ (m.map Prod.fst).Nodup ∧
      (∀ k, k ∉ common.map Prod.fst → m.get k = (s.Tags.getD []).get k) ∧
      ((common.map Prod.fst).Nodup → ∀ kv ∈ common, m.get kv.1 = some kv.2) := by
  unfold WellFormedTags at hwf
  unfold addCommonTags
  cases hT : s.Tags with
  | none =>
    rw [hT] at hwf
    obtain ⟨h1, h2, h3⟩ := foldl_set_common common [] (by simp)
    exact ⟨_, rfl, h1, h2, h3⟩
  | some m0 =>
    rw [hT] at hwf
    obtain ⟨h1, h2, h3⟩ := foldl_set_common common m0 (by simpa using hwf)
    exact ⟨_, rfl, h1, h2, h3⟩

/-- The resource, metadata and name of a wire span, for a span with tag map `m`. -/
theorem toDatadogSpan_fields (s : SSFSpan) (m : TagMap) (hT : s.Tags = some m)
    (hnd : (m.map Prod.fst).Nodup) :
    (toDatadogSpan s).Resource =
      (match m.get datadogResourceKey with
        | some v => if v = "" then "unknown" else v
        | none => "unknown") ∧
    (toDatadogSpan s).Meta = m.filter (fun kv => kv.1 ≠ datadogResourceKey) ∧
    (toDatadogSpan s).Meta.get datadogResourceKey = none ∧
    (∀ k, k ≠ datadogResourceKey → (toDatadogSpan s).Meta.get k = m.get k) ∧
    (toDatadogSpan s).Name = (if s.Name = "" then "unknown" else s.Name) ∧
    (toDatadogSpan s).Resource ≠ "" ∧ (toDatadogSpan s).Name ≠ "" := by
  have hunk : ¬ ("unknown" = "") := by decide
  have hcopy : List.foldl (fun (acc : TagMap) kv => acc.set kv.1 kv.2) ([] : TagMap) m = m := by
    have := foldl_set_copy m [] (by simpa using hnd)
    simpa using this
  have hmeta : (toDatadogSpan s).Meta = m.delete datadogResourceKey := by
    simp only [toDatadogSpan, hT, hcopy]
  have hres : (toDatadogSpan s).Resource =
      (match m.get datadogResourceKey with
        | some v => if v = "" then "unknown" else v
        | none => "unknown") := by
    simp only [toDatadogSpan, hT]
    cases m.get datadogResourceKey with
    | none => simp
    | some v => simp
  have hname : (toDatadogSpan s).Name = (if s.Name = "" then "unknown" else s.Name) := rfl
  refine ⟨hres, hmeta, ?_, ?_, hname, ?_, ?_⟩
  · rw [hmeta, get_delete, if_pos rfl]
  · intro k hk
    rw [hmeta, get_delete, if_neg hk]
  · rw [hres]
    cases m.get datadogResourceKey with
    | none => exact hunk
    | some v =>
      by_cases hv : v = ""
      · simp only [hv, if_true]; exact hunk
      · simp only [hv, if_false]; exact hv
  · rw [hname]
    by_cases hn : s.Name = ""
    · simp only [hn, if_true]; exact hunk
    · simp only [hn, if_false]; exact hn

/-! ## Claims on the wire spans -/

/-- C15 (common tags win): if the tags of the ring spans and the common tags are maps
(each key once), then for every span in the ring, nil tags included, its wire span is
in the group of its trace id, its `Meta` maps every common tag key other than
"resource" to the common value, and maps every key that is neither a common tag key
nor "resource" to what the span carried; so every wire span of the final array has
every such common tag in its `Meta`. -/
theorem C15_common_tags_win (env : SpanEnv) (dd : DatadogSpanSink)
    (hwf : ∀ s ∈ ringSpans dd, WellFormedTags s)
    (hcommon : (dd.commonTags.map Prod.fst).Nodup) :
    (∀ s ∈ ringSpans dd,
      addCommonTags dd.commonTags s ∈ (dd.Flush env).ssfSpans ∧
      toDatadogSpan (addCommonTags dd.commonTags s) ∈
        groupOf (dd.Flush env).traceMap s.TraceId ∧
      (∀ kv ∈ dd.commonTags, kv.1 ≠ datadogResourceKey →
        (toDatadogSpan (addCommonTags dd.commonTags s)).Meta.get kv.1 = some kv.2) ∧
      (∀ k, k ∉ dd.commonTags.map Prod.fst → k ≠ datadogResourceKey →
        (toDatadogSpan (addCommonTags dd.commonTags s)).Meta.get k =
          (s.Tags.getD []).get k)) ∧
    (∀ group ∈ (dd.Flush env).finalTraces, ∀ w ∈ group, ∀ kv ∈ dd.commonTags,
      kv.1 ≠ datadogResourceKey → w.Meta.get kv.1 = some kv.2) := by
  have hper : ∀ s ∈ ringSpans dd,
      (∀ kv ∈ dd.commonTags, kv.1 ≠ datadogResourceKey →
        (toDatadogSpan (addCommonTags dd.commonTags s)).Meta.get kv.1 = some kv.2) ∧
      (∀ k, k ∉ dd.commonTags.map Prod.fst → k ≠ datadogResourceKey →
        (toDatadogSpan (addCommonTags dd.commonTags s)).Meta.get k =
          (s.Tags.getD []).get k) := by
    intro s hs
    obtain ⟨m, hm, hnd, hother, hwin⟩ := tags_addCommonTags dd.commonTags s (hwf s hs)
    obtain ⟨_, _, _, hget, _⟩ := toDatadogSpan_fields (addCommonTags dd.commonTags s) m hm hnd
    refine ⟨fun kv hkv hne => ?_, fun k hk hne => ?_⟩
    · rw [hget kv.1 hne]; exact hwin hcommon kv hkv
    · rw [hget k hne]; exact hother k hk
  obtain ⟨hin, hout⟩ := wire_spans_Flush env dd
  have hmem : ∀ s ∈ ringSpans dd, addCommonTags dd.commonTags s ∈ (dd.Flush env).ssfSpans := by
    intro s hs
    rw [ssfSpans_eq_map]
    exact List.mem_map.mpr ⟨s, hs, rfl⟩
  refine ⟨fun s hs => ⟨hmem s hs, hin _ (hmem s hs), (hper s hs).1, (hper s hs).2⟩, ?_⟩
  intro group hg w hw kv hkv hne
  obtain ⟨s', hs', rfl⟩ := hout group hg w hw
  rw [ssfSpans_eq_map] at hs'
  obtain ⟨s, hs, rfl⟩ := List.mem_map.mp hs'
  exact (hper s hs).1 kv hkv hne

/-- Witness of C15: with the common tag env=prod, every wire span has env=prod in its
`Meta`, also the span that carried env=dev and the span with nil tags. -/
theorem C15_common_tags_win_witness :
    (∀ s ∈ ringSpans sinkWithThree, WellFormedTags s) ∧
    (sinkWithThree.commonTags.map Prod.fst).Nodup ∧
    (sinkWithThree.Flush needIds).finalTraces.map
      (fun group => group.map (fun w => (w.Meta.get "env", w.Meta.get "peer")))
      = [[(some "prod", none), (some "prod", some "db")], [(some "prod", none)]] ∧
    (∀ group ∈ (sinkWithThree.Flush needIds).finalTraces, ∀ w ∈ group,
      ∀ kv ∈ sinkWithThree.commonTags,
        kv.1 ≠ datadogResourceKey → w.Meta.get kv.1 = some kv.2) :=
  ⟨by decide, by decide, by decide,
    (C15_common_tags_win needIds sinkWithThree (by decide) (by decide)).2⟩

/-- C16 (parent normalization): for every collected span, the `ParentID` of its wire
span is 0 when the span's `ParentId` is at most 0 and is the span's `ParentId`
otherwise, and the wire span is in the group of its trace id; so no wire span of the
final array has a negative `ParentID`. -/
theorem C16_parent_normalization (env : SpanEnv) (dd : DatadogSpanSink) :
    (∀ s ∈ (dd.Flush env).ssfSpans,
      toDatadogSpan s ∈ groupOf (dd.Flush env).traceMap s.TraceId ∧
      (s.ParentId ≤ 0 → (toDatadogSpan s).ParentID = 0) ∧
      (0 < s.ParentId → (toDatadogSpan s).ParentID = s.ParentId)) ∧
    (∀ group ∈ (dd.Flush env).finalTraces, ∀ w ∈ group, 0 ≤ w.ParentID) := by
  obtain ⟨hin, hout⟩ := wire_spans_Flush env dd
  have hparent : ∀ s : SSFSpan,
      (toDatadogSpan s).ParentID = if s.ParentId ≤ 0 then 0 else s.ParentId := fun _ => rfl
  refine ⟨fun s hs => ⟨hin s hs, fun h => ?_, fun h => ?_⟩, ?_⟩
  · rw [hparent, if_pos h]
  · rw [hparent, if_neg (by omega)]
  · intro group hg w hw
    obtain ⟨s, _, rfl⟩ := hout group hg w hw
    rw [hparent]
    split <;> omega

/-- Witness of C16: parent ids -1, 77 and 0 become 0, 77 and 0. -/
theorem C16_parent_normalization_witness :
    (sinkWithThree.Flush needIds).ssfSpans.map (fun s => s.ParentId) = [-1, 77, 0] ∧
    (sinkWithThree.Flush needIds).finalTraces.map (fun group => group.map (fun w => w.ParentID))
      = [[0, 77], [0]] ∧
    (∀ group ∈ (sinkWithThree.Flush needIds).finalTraces, ∀ w ∈ group, 0 ≤ w.ParentID) :=
  ⟨by decide, by decide, (C16_parent_normalization needIds sinkWithThree).2⟩

/-- C17 (resource and name defaults): if the tags of the ring spans are maps (each key
once), every collected span has a tag map `m` (the tags after the common-tag merge),
its wire span is in the group of its trace id, and the wire span has: `Resource` the
value of "resource" in `m`, or "unknown" when that key is absent or its value is
empty; `Meta` the entries of `m` without the key "resource"; `Name` the name of the
span, or "unknown" when it is empty.  `Resource` and `Name` are never empty. -/
theorem C17_resource_name_defaults (env : SpanEnv) (dd : DatadogSpanSink)
    (hwf : ∀ s ∈ ringSpans dd, WellFormedTags s) :
    ∀ s ∈ (dd.Flush env).ssfSpans, ∃ m : TagMap, s.Tags = some m ∧
      toDatadogSpan s ∈ groupOf (dd.Flush env).traceMap s.TraceId ∧
      (toDatadogSpan s).Resource =
        (match m.get datadogResourceKey with
          | some v => if v = "" then "unknown" else v
          | none => "unknown") ∧
      (toDatadogSpan s).Meta = m.filter (fun kv => kv.1 ≠ datadogResourceKey) ∧
      (toDatadogSpan s).Meta.get datadogResourceKey = none ∧
      (∀ k, k ≠ datadogResourceKey → (toDatadogSpan s).Meta.get k = m.get k) ∧
      (toDatadogSpan s).Name = (if s.Name = "" then "unknown" else s.Name) ∧
      (toDatadogSpan s).Resource ≠ "" ∧ (toDatadogSpan s).Name ≠ "" := by
  intro s hs
  have hin := (wire_spans_Flush env dd).1 s hs
  rw [ssfSpans_eq_map] at hs
  obtain ⟨s0, hs0, rfl⟩ := List.mem_map.mp hs
  obtain ⟨m, hm, hnd, _, _⟩ := tags_addCommonTags dd.commonTags s0 (hwf s0 hs0)
  obtain ⟨h1, h2, h3, h4, h5, h6, h7⟩ :=
    toDatadogSpan_fields (addCommonTags dd.commonTags s0) m hm hnd
  exact ⟨m, hm, hin, h1, h2, h3, h4, h5, h6, h7⟩

/-- Witness of C17: of three spans, one has the tag resource="GET /users" and one an
empty name; the wire spans have resources "unknown", "unknown", "GET /users", names
"root", "unknown", "get", and no "resource" key in `Meta`. -/
theorem C17_resource_name_defaults_witness :
    (∀ s ∈ ringSpans sinkWithThree, WellFormedTags s) ∧
    (sinkWithThree.Flush needIds).finalTraces.map
      (fun group => group.map (fun w => (w.Resource, w.Name, w.Meta.get "resource")))
      = [[("unknown", "root", none), ("unknown", "unknown", none)],
         [("GET /users", "get", none)]] ∧
    (∀ s ∈ (sinkWithThree.Flush needIds).ssfSpans,
      (toDatadogSpan s).Resource ≠ "" ∧ (toDatadogSpan s).Name ≠ "") := by
  refine ⟨by decide, by decide, fun s hs => ?_⟩
  obtain ⟨_, _, _, _, _, _, _, _, h6, h7⟩ :=
    C17_resource_name_defaults needIds sinkWithThree (by decide) s hs
  exact ⟨h6, h7⟩

/-! ## Claims on drain order and on the timestamp sample -/

/-- The group of every key of the trace map lists the conversions of the collected
spans of that trace id, in the order they were collected. -/
theorem groups_Flush (env : SpanEnv) (dd : DatadogSpanSink) :
    ∀ kv ∈ (dd.Flush env).traceMap,
      kv.2 = ((dd.Flush env).ssfSpans.filter (fun s => s.TraceId = kv.1)).map
        toDatadogSpan := by
  obtain ⟨htm, _, _⟩ := outputs_Flush env dd
  obtain ⟨h1, h2, _, _, _⟩ :=
    foldl_appendTrace (dd.Flush env).ssfSpans [] List.nodup_nil (fun kv hkv => by cases hkv)
  rw [← htm] at h1 h2
  intro kv hkv
  obtain ⟨t, g⟩ := kv
  have hg := groupOf_of_mem _ h2 t g hkv
  rw [h1 t] at hg
  simpa [groupOf] using hg.symm

/-- C19 (drain order is ingest order): for a capacity `C > 0`, a sink that was just
constructed with that capacity or just flushed with that buffer size, and any valid
spans ingested into it, every `Ingest` returns, the ring then holds the last
`min n C` spans in ingest order, oldest first, `Flush` collects them in that order
(with the common tags assigned), and every trace group lists its spans in that order. -/
theorem C19_drain_order (env : SpanEnv) (dd : DatadogSpanSink) (C : Nat) (hC : 0 < C)
    (hfresh : (∃ address commonTags, dd = NewDatadogSpanSink address (C : Int) commonTags) ∨
      (∃ dd0 : DatadogSpanSink, dd0.bufferSize = (C : Int) ∧ dd = (dd0.Flush env).sink))
    (spans : List SSFSpan) (hvalid : ∀ span ∈ spans, env.ValidateTrace span = none) :
    ∃ dd' : DatadogSpanSink, ingestAll env dd spans = .ok dd' ∧
      ringSpans dd' = spans.drop (spans.length - C) ∧
      (ringSpans dd').length = min spans.length C ∧
      (dd'.Flush env).ssfSpans =
        (spans.drop (spans.length - C)).map (addCommonTags dd.commonTags) ∧
      (∀ kv ∈ (dd'.Flush env).traceMap,
        kv.2 = (((spans.drop (spans.length - C)).map (addCommonTags dd.commonTags)).filter
          (fun s => s.TraceId = kv.1)).map toDatadogSpan) := by
  have hC0 : ¬ ((C : Int) = 0) := by omega
  have hCle : ¬ ((C : Int) ≤ 0) := by omega
  have hbuf : dd.buffer = some ⟨List.replicate C none, 0⟩ := by
    rcases hfresh with ⟨address, commonTags, rfl⟩ | ⟨dd0, hsize, rfl⟩
    · simp [NewDatadogSpanSink, Ring.New, hC0, hCle]
    · rw [sink_Flush, hsize]
      simp [Ring.New, hCle]
  obtain ⟨r', h1, _, _, h4⟩ := ingestAll_visit env spans hvalid dd
    ⟨List.replicate C none, 0⟩ hbuf (by simpa using hC)
  have hv0 : Ring.visit (some ⟨List.replicate C none, 0⟩) = List.replicate C none := by
    simp [Ring.visit]
  rw [hv0] at h4
  have hring : ringSpans { dd with buffer := some r' } = spans.drop (spans.length - C) := by
    show List.filterMap id (Ring.visit (some r')) = _
    rw [h4, filterMap_drop_replicate]
  have hss : (DatadogSpanSink.Flush env { dd with buffer := some r' }).ssfSpans =
      (spans.drop (spans.length - C)).map (addCommonTags dd.commonTags) := by
    rw [ssfSpans_eq_map, hring]
  refine ⟨_, h1, hring, ?_, hss, ?_⟩
  · rw [hring, List.length_drop]; omega
  · intro kv hkv
    rw [groups_Flush env _ kv hkv, hss]

/-- Witness of C19: a just flushed sink of capacity 4 ingests `s1 .. s6` and the next
flush collects the spans 3, 4, 5, 6 in that order (the ring has wrapped); a new sink
of capacity 4 ingests `s1, s2` and collects 1, 2. -/
theorem C19_drain_order_witness :
    (∃ dd' : DatadogSpanSink,
      ingestAll needIds (sinkAfterOne.Flush needIds).sink sixSpans = .ok dd' ∧
      (dd'.Flush needIds).ssfSpans.map (fun s => s.Id) = [3, 4, 5, 6]) ∧
    (∃ dd' : DatadogSpanSink,
      ingestAll needIds (NewDatadogSpanSink "localhost:8126" 4 [])
        [spanWithId 1, spanWithId 2] = .ok dd' ∧
      (dd'.Flush needIds).ssfSpans.map (fun s => s.Id) = [1, 2]) := by
  constructor
  · obtain ⟨dd', h1, _, _, h4, _⟩ :=
      C19_drain_order needIds (sinkAfterOne.Flush needIds).sink 4 (by decide)
        (Or.inr ⟨sinkAfterOne, by decide, rfl⟩) sixSpans (by decide)
    exact ⟨dd', h1, by rw [h4]; decide⟩
  · obtain ⟨dd', h1, _, _, h4, _⟩ :=
      C19_drain_order needIds (NewDatadogSpanSink "localhost:8126" 4 []) 4 (by decide)
        (Or.inl ⟨"localhost:8126", [], rfl⟩) [spanWithId 1, spanWithId 2] (by decide)
    exact ⟨dd', h1, by rw [h4]; decide⟩

/-- The samples of a span flush: none from the drain loop; one count per service and
one timing when a request is made. -/
theorem samples_Flush (env : SpanEnv) (dd : DatadogSpanSink) :
    ∀ smp ∈ (dd.Flush env).samples,
      smp.Name = env.MetricKeyTotalSpansFlushed ∨
      smp.Name = env.MetricKeySpanFlushDuration := by
  unfold DatadogSpanSink.Flush
  dsimp only
  split
  · intro smp hsmp
    simp only [foldl_drainStep, List.nil_append, List.mem_append, List.mem_map,
      List.mem_singleton] at hsmp
    rcases hsmp with ⟨sc, _, rfl⟩ | rfl
    · exact Or.inl rfl
    · exact Or.inr rfl
  · intro smp hsmp
    simp only [foldl_drainStep] at hsmp
    cases hsmp

/-- C20 (timestamp-error sample): on every ring value, whatever the start timestamp
of the span, the drain callback leaves the reported samples as they were; the drain
loop of `Flush` therefore ends with no sample, and no sample that `Flush` reports
has the name "worker.trace.sink.timestamp_error" (the two metric keys of the sink
being other names). -/
theorem C20_no_timestamp_error_sample (env : SpanEnv) (dd : DatadogSpanSink)
    (hkeys : env.MetricKeyTotalSpansFlushed ≠ timestampErrorKey ∧
      env.MetricKeySpanFlushDuration ≠ timestampErrorKey) :
    (∀ (commonTags : TagMap) (acc : List SSFSample × List SSFSpan) (t : Option SSFSpan),
      (drainStep commonTags acc t).1 = acc.1) ∧
    ((Ring.visit dd.buffer).foldl (drainStep dd.commonTags) ([], [])).1 = [] ∧
    (∀ smp ∈ (dd.Flush env).samples, smp.Name ≠ timestampErrorKey) := by
  refine ⟨fun commonTags acc t => ?_, by rw [foldl_drainStep], fun smp hsmp => ?_⟩
  · cases t with
    | none => rfl
    | some span => rw [drainStep_some]
  · rcases samples_Flush env dd smp hsmp with h | h
    · rw [h]; exact hkeys.1
    · rw [h]; exact hkeys.2

/-- Witness of C20: spans that start before the early bound (1000 < 1497) and spans
that start after the late bound are flushed without a timestamp-error sample. -/
theorem C20_no_timestamp_error_sample_witness :
    (sinkWithThree.Flush needIds).ssfSpans.map (fun s => decide (s.StartTimestamp < 1497))
      = [true, true, true] ∧
    (sinkAfterOne.Flush needIds).ssfSpans.map
      (fun s => decide (s.StartTimestamp > 1497629343000000)) = [true] ∧
    (sinkWithThree.Flush needIds).samples.map (fun smp => smp.Name)
      = ["sink.spans_flushed_total", "sink.span_flush_total_duration_ns"] ∧
    (∀ smp ∈ (sinkWithThree.Flush needIds).samples, smp.Name ≠ timestampErrorKey) ∧
    (∀ smp ∈ (sinkAfterOne.Flush needIds).samples, smp.Name ≠ timestampErrorKey) :=
  ⟨by decide, by decide, by decide,
    (C20_no_timestamp_error_sample needIds sinkWithThree ⟨by decide, by decide⟩).2.2,
    (C20_no_timestamp_error_sample needIds sinkAfterOne ⟨by decide, by decide⟩).2.2⟩

/-! ## The heap of tag slices -/

/-- Arrays below an unchanged heap front are the same arrays. -/
theorem array_of_take (h h' : Heap) (k id : Nat) (hk : h'.take k = h.take k) (hid : id < k) :
    h'.array id = h.array id := by
  unfold Heap.array
  rw [List.getD_eq_getElem?_getD, List.getD_eq_getElem?_getD]
  have h1 : (h'.take k)[id]? = h'[id]? := by rw [List.getElem?_take, if_pos hid]
  have h2 : (h.take k)[id]? = h[id]? := by rw [List.getElem?_take, if_pos hid]
  rw [← h1, ← h2, hk]

theorem read_of_take (h h' : Heap) (k : Nat) (s : GoSlice) (hk : h'.take k = h.take k)
    (hs : s.arr < k) : h'.read s = h.read s := by
  unfold Heap.read
  rw [array_of_take h h' k s.arr hk hs]

theorem array_set (h : Heap) (id : Nat) (a : List String) (hid : id < h.length) :
    Heap.array (h.set id a) id = a := by
  unfold Heap.array
  rw [List.getD_eq_getElem?_getD, List.getElem?_set_self hid]
  rfl

theorem array_append_new (h : Heap) (a : List String) :
    Heap.array (h ++ [a]) h.length = a := by
  unfold Heap.array
  rw [List.getD_eq_getElem?_getD, List.getElem?_concat_length]
  rfl

/-- The elements shown after an in-place write behind the last element. -/
theorem take_drop_set (a : List String) (off len : Nat) (x : String)
    (hlt : off + len < a.length) :
    ((a.set (off + len) x).drop off).take (len + 1) = (a.drop off).take len ++ [x] := by
  rw [List.set_eq_take_append_cons_drop, if_pos hlt]
  have h1 : (a.take (off + len)).length = off + len := by
    rw [List.length_take]; omega
  have hsplit : a.take (off + len) = a.take off ++ (a.drop off).take len := by
    rw [List.take_drop]
    exact (List.take_append_drop off (a.take (off + len))).symm.trans
      (by rw [List.take_take, Nat.min_eq_left (Nat.le_add_right _ _)])
  have hoff : (a.take off).length = off := by
    rw [List.length_take]; omega
  rw [hsplit, List.append_assoc, List.drop_left' hoff]
  have hlen : ((a.drop off).take len).length = len := by
    rw [List.length_take, List.length_drop]; omega
  have : (a.drop off).take len ++ x :: a.drop (off + len + 1) =
      ((a.drop off).take len ++ [x]) ++ a.drop (off + len + 1) := by simp
  rw [this, List.take_left' (by rw [List.length_append, hlen]; rfl)]

/-- What `append` does to a valid slice: the slice shows one more element, the heap
below the array of the slice is untouched, and the slice stays valid. -/
theorem append_spec (spare : Nat → Nat) (h : Heap) (s : GoSlice) (x : String)
    (hv : s.ValidIn h) :
    (Heap.append spare h s x).2.ValidIn (Heap.append spare h s x).1 ∧
    (Heap.append spare h s x).1.read (Heap.append spare h s x).2 = h.read s ++ [x] ∧
    (Heap.append spare h s x).1.take s.arr = h.take s.arr ∧
    s.arr ≤ (Heap.append spare h s x).2.arr := by
  obtain ⟨arr, off, len, cap⟩ := s
  unfold GoSlice.ValidIn at hv ⊢
  dsimp only at hv
  obtain ⟨h1, h2, h3⟩ := hv
  unfold Heap.append
  dsimp only
  by_cases hc : len < cap
  · rw [if_pos hc]
    dsimp only
    have harr := array_set h arr ((h.array arr).set (off + len) x) h1
    refine ⟨⟨by rw [List.length_set]; exact h1, ?_, by omega⟩, ?_, ?_, le_refl _⟩
    · rw [harr, List.length_set]; exact h2
    · unfold Heap.read
      dsimp only
      rw [harr]
      exact take_drop_set _ _ _ _ (by omega)
    · rw [List.set_eq_take_append_cons_drop, if_pos h1,
        List.take_left' (by rw [List.length_take]; omega)]
  · rw [if_neg hc]
    dsimp only
    have hlen : (Heap.read h ⟨arr, off, len, cap⟩).length = len := by
      unfold Heap.read
      dsimp only
      rw [List.length_take, List.length_drop]; omega
    refine ⟨⟨by simp, ?_, by omega⟩, ?_, ?_, by omega⟩
    · rw [array_append_new]
      simp only [List.length_append, hlen, List.length_cons, List.length_nil,
        List.length_replicate]
      omega
    · have hsplit : Heap.read h ⟨arr, off, len, cap⟩ ++ [x] ++ List.replicate (spare len) "" =
          (Heap.read h ⟨arr, off, len, cap⟩ ++ [x]) ++ List.replicate (spare len) "" := rfl
      show List.take (len + 1) (List.drop 0 (Heap.array _ h.length)) = _
      rw [array_append_new, List.drop_zero, hsplit,
        List.take_left' (by rw [List.length_append, hlen]; rfl)]
    · exact List.take_append_of_le_length (by omega)

theorem length_le_of_take (h h' : Heap) (hk : h'.take h.length = h) :
    h.length ≤ h'.length := by
  have := congrArg List.length hk
  rw [List.length_take] at this
  omega

/-- A valid slice stays valid, and shows the same elements, when the heap grows
without touching the arrays it had. -/
theorem valid_of_take (h h' : Heap) (s : GoSlice) (hv : s.ValidIn h)
    (hk : h'.take h.length = h) : s.ValidIn h' ∧ h'.read s = h.read s := by
  obtain ⟨h1, h2, h3⟩ := hv
  have hk' : h'.take h.length = h.take h.length := by rw [hk, List.take_length]
  have hle := length_le_of_take h h' hk
  refine ⟨⟨by omega, ?_, h3⟩, read_of_take h h' h.length s hk' h1⟩
  rw [array_of_take h h' h.length s.arr hk' h1]
  exact h2

/-- The statements `tags := make([]string, len(dd.tags)); copy(tags, dd.tags)`: a new
array holding the sink tags, no other array touched. -/
theorem make_copy_spec (h : Heap) (sinkTags : GoSlice) (hv : sinkTags.ValidIn h) :
    Heap.copy (Heap.make h sinkTags.len).1 (Heap.make h sinkTags.len).2 sinkTags =
      h ++ [h.read sinkTags] ∧
    (Heap.make h sinkTags.len).2 = ⟨h.length, 0, sinkTags.len, sinkTags.len⟩ ∧
    (Heap.make h sinkTags.len).2.ValidIn (h ++ [h.read sinkTags]) ∧
    Heap.read (h ++ [h.read sinkTags]) (Heap.make h sinkTags.len).2 = h.read sinkTags := by
  have hlen : (h.read sinkTags).length = sinkTags.len := by
    obtain ⟨_, h2, h3⟩ := hv
    unfold Heap.read
    rw [List.length_take, List.length_drop]; omega
  have hgrow : (h ++ [List.replicate sinkTags.len ""]).take h.length = h :=
    List.take_left' rfl
  have hread : Heap.read (h ++ [List.replicate sinkTags.len ""]) sinkTags = h.read sinkTags :=
    (valid_of_take h _ sinkTags hv hgrow).2
  have hnew : Heap.read (h ++ [h.read sinkTags]) ⟨h.length, 0, sinkTags.len, sinkTags.len⟩ =
      h.read sinkTags := by
    show List.take sinkTags.len (List.drop 0 (Heap.array _ h.length)) = _
    rw [array_append_new, List.drop_zero, ← hlen, List.take_length]
  refine ⟨?_, rfl, ⟨by simp [Heap.make], ?_, le_refl _⟩, hnew⟩
  · unfold Heap.copy Heap.make
    dsimp only
    have hmk : Heap.read (h ++ [List.replicate sinkTags.len ""]) sinkTags = h.read sinkTags :=
      hread
    rw [hmk, array_append_new]
    have htake : (h.read sinkTags).take sinkTags.len = h.read sinkTags := by
      rw [← hlen, List.take_length]
    rw [htake, hlen]
    simp only [List.take_zero, List.nil_append, Nat.zero_add]
    have hdrop : List.drop sinkTags.len (List.replicate sinkTags.len "") = [] :=
      List.drop_eq_nil_of_le (by simp)
    rw [hdrop, List.append_nil]
    have hset : ∀ (a b : List String), (h ++ [a]).set h.length b = h ++ [b] := by
      intro a b
      rw [List.set_eq_take_append_cons_drop, if_pos (by simp), List.take_left' rfl]
      simp
    exact hset _ _
  · show 0 + sinkTags.len ≤ (Heap.array (h ++ [h.read sinkTags]) h.length).length
    rw [array_append_new, hlen]
    omega

/-- The magic-tag loop on the heap: the slice grows by the plain tags of the sample,
stays valid, and no array in front of its own is touched. -/
theorem foldl_magicTagStepHeap (spare : Nat → Nat) (tags : List String) :
    ∀ (h : Heap) (s : GoSlice) (k : Nat), s.ValidIn h → k ≤ s.arr →
      (tags.foldl (magicTagStepHeap spare) (h, s)).2.ValidIn
        (tags.foldl (magicTagStepHeap spare) (h, s)).1 ∧
      (tags.foldl (magicTagStepHeap spare) (h, s)).1.read
        (tags.foldl (magicTagStepHeap spare) (h, s)).2 = h.read s ++ tags.filter plainTag ∧
      (tags.foldl (magicTagStepHeap spare) (h, s)).1.take k = h.take k := by
  induction tags with
  | nil => intro h s k hv _; exact ⟨hv, by simp, rfl⟩
  | cons tag rest ih =>
    intro h s k hv hk
    rw [List.foldl_cons]
    by_cases hh : HasPrefix tag "host:" = true
    · have hstep : magicTagStepHeap spare (h, s) tag = (h, s) := by
        simp [magicTagStepHeap, hh]
      rw [hstep]
      obtain ⟨i1, i2, i3⟩ := ih h s k hv hk
      exact ⟨i1, by rw [i2]; simp [List.filter_cons, plainTag, hh], i3⟩
    · by_cases hd : HasPrefix tag "device:" = true
      · have hstep : magicTagStepHeap spare (h, s) tag = (h, s) := by
          simp [magicTagStepHeap, hh, hd]
        rw [hstep]
        obtain ⟨i1, i2, i3⟩ := ih h s k hv hk
        exact ⟨i1, by rw [i2]; simp [List.filter_cons, plainTag, hd], i3⟩
      · have hstep : magicTagStepHeap spare (h, s) tag = Heap.append spare h s tag := by
          simp [magicTagStepHeap, hh, hd]
        rw [hstep]
        obtain ⟨a1, a2, a3, a4⟩ := append_spec spare h s tag hv
        obtain ⟨i1, i2, i3⟩ := ih (Heap.append spare h s tag).1 (Heap.append spare h s tag).2 k
          a1 (le_trans hk a4)
        refine ⟨i1, ?_, ?_⟩
        · rw [i2, a2]
          simp [List.filter_cons, plainTag, hh, hd]
        · rw [i3]
          have := congrArg (List.take k) a3
          rw [List.take_take, List.take_take, Nat.min_eq_left hk] at this
          exact this

/-- One sample on the heap: the arrays that existed are untouched, and the slices
added show the tags of the records the sample yields. -/
theorem finalizeStepHeap_spec {F : Type} (spare : Nat → Nat) (env : MetricEnv F)
    (dd : DatadogMetricSink F) (sinkTags : GoSlice) (st : Heap × List GoSlice)
    (m : InterMetric F) (hv : sinkTags.ValidIn st.1) (hread : st.1.read sinkTags = dd.tags) :
    (finalizeStepHeap spare env dd sinkTags st m).1.take st.1.length = st.1 ∧
    ∃ news : List GoSlice,
      (finalizeStepHeap spare env dd sinkTags st m).2 = st.2 ++ news ∧
      news.map (finalizeStepHeap spare env dd sinkTags st m).1.read =
        (finalizeStep env dd [] m).map (fun r => r.Tags) ∧
      ∀ s ∈ news, s.arr < (finalizeStepHeap spare env dd sinkTags st m).1.length := by
  obtain ⟨h, acc⟩ := st
  simp only at hv hread
  unfold finalizeStepHeap
  by_cases ha : env.IsAcceptableMetric m dd = true
  · simp only [ha, Bool.not_true, Bool.false_eq_true, if_false]
    obtain ⟨hcopy, hslice, hvalid, hnew⟩ := make_copy_spec h sinkTags hv
    rw [hcopy]
    have hfront : (h ++ [h.read sinkTags]).take h.length = h := List.take_left' rfl
    by_cases ht : m.Typ = MetricType.unsupported
    · have hsw : typeSwitch env dd m = none := by simp [typeSwitch, ht]
      rw [hsw]
      refine ⟨hfront, [], by simp, ?_, fun s hs => by cases hs⟩
      rw [(finalizeStep_nil env dd m).2.1 ht]
      rfl
    · obtain ⟨p, hp⟩ : ∃ p, typeSwitch env dd m = some p := by
        unfold typeSwitch
        cases hT : m.Typ with
        | unsupported => exact absurd hT ht
        | CounterMetric => exact ⟨_, rfl⟩
        | GaugeMetric => exact ⟨_, rfl⟩
      rw [hp]
      dsimp only
      obtain ⟨f1, f2, f3⟩ := foldl_magicTagStepHeap spare m.Tags (h ++ [h.read sinkTags])
        (Heap.make h sinkTags.len).2 h.length hvalid (by rw [hslice])
      obtain ⟨r, hr, _, _, _, htags, _, _⟩ := (finalizeStep_nil env dd m).2.2 ha ht
      refine ⟨by rw [f3]; exact hfront, [_], rfl, ?_, ?_⟩
      · rw [hr, List.map_cons, List.map_nil, List.map_cons, List.map_nil, f2, hnew, hread,
          htags]
      · intro s hs
        rw [List.mem_singleton] at hs
        subst hs
        exact f1.1
  · have hfalse : env.IsAcceptableMetric m dd = false := by simpa using ha
    simp only [hfalse, Bool.not_false, if_true]
    refine ⟨List.take_length _, [], by simp, ?_, fun s hs => by cases hs⟩
    rw [(finalizeStep_nil env dd m).1 hfalse]
    rfl

/-- The sample loop on the heap, from any state: the arrays that existed are untouched
and the slices added show, in the final heap, the tags of the records emitted. -/
theorem foldl_finalizeStepHeap {F : Type} (spare : Nat → Nat) (env : MetricEnv F)
    (dd : DatadogMetricSink F) (sinkTags : GoSlice) (metrics : List (InterMetric F)) :
    ∀ st : Heap × List GoSlice, sinkTags.ValidIn st.1 → st.1.read sinkTags = dd.tags →
      (metrics.foldl (finalizeStepHeap spare env dd sinkTags) st).1.take st.1.length = st.1 ∧
      ∃ news : List GoSlice,
        (metrics.foldl (finalizeStepHeap spare env dd sinkTags) st).2 = st.2 ++ news ∧
        news.map (metrics.foldl (finalizeStepHeap spare env dd sinkTags) st).1.read =
          ((metrics.map (finalizeStep env dd [])).flatten).map (fun r => r.Tags) ∧
        ∀ s ∈ news,
          s.arr < (metrics.foldl (finalizeStepHeap spare env dd sinkTags) st).1.length := by
  induction metrics with
  | nil =>
    intro st _ _
    exact ⟨List.take_length _, [], by simp, rfl, fun s hs => by cases hs⟩
  | cons m rest ih =>
    intro st hv hread
    obtain ⟨s1, news1, s2, s3, s4⟩ := finalizeStepHeap_spec spare env dd sinkTags st m hv hread
    obtain ⟨hv1, hread1⟩ := valid_of_take st.1 _ sinkTags hv s1
    obtain ⟨r1, news2, r2, r3, r4⟩ :=
      ih (finalizeStepHeap spare env dd sinkTags st m) hv1 (hread1.trans hread)
    have hle := length_le_of_take st.1 _ s1
    have hle2 := length_le_of_take _ _ r1
    rw [List.foldl_cons]
    refine ⟨?_, news1 ++ news2, ?_, ?_, ?_⟩
    · have := congrArg (List.take st.1.length) r1
      rw [List.take_take, Nat.min_eq_left hle] at this
      rw [this, s1]
    · rw [r2, s2, List.append_assoc]
    · rw [List.map_append, r3, List.map_cons, List.flatten_cons, List.map_append, ← s3]
      congr 1
      apply List.map_congr_left
      intro s hs
      exact read_of_take _ _ _ s (by rw [r1, List.take_length]) (s4 s hs)
    · intro s hs
      rcases List.mem_append.mp hs with hs | hs
      · exact lt_of_lt_of_le (s4 s hs) hle2
      · exact r4 s hs

/-- An `append` straight onto the sink tag slice, which has spare capacity, would write
into the sink's backing array: the copy that `finalizeMetrics` makes is what keeps the
array as it was. -/
theorem append_without_copy_example :
    (Heap.append (fun _ => 2) sinkHeap sinkTagSlice "env:prod").1.array 0
      = ["cluster:a", "env:prod", "spare-2"] := by
  decide

/-! ## Claim on the tags of a record -/

/-- The emitted records stand, in order, in any relation that holds between a sample
and the single record it yields. -/
theorem forall₂_records {F : Type} (env : MetricEnv F) (dd : DatadogMetricSink F)
    (P : InterMetric F → DDMetric F → Prop)
    (hP : ∀ m r, env.IsAcceptableMetric m dd = true → m.Typ ≠ MetricType.unsupported →
      finalizeStep env dd [] m = [r] → P m r)
    (metrics : List (InterMetric F)) :
    List.Forall₂ P (metrics.filter (emitsRecord env dd)) (dd.finalizeMetrics env metrics) := by
  rw [finalizeMetrics_eq]
  induction metrics with
  | nil => exact List.Forall₂.nil
  | cons m rest ih =>
    rw [List.map_cons, List.flatten_cons, List.filter_cons]
    by_cases hm : emitsRecord env dd m = true
    · rw [if_pos hm]
      unfold emitsRecord at hm
      have ha : env.IsAcceptableMetric m dd = true := by
        simp only [Bool.and_eq_true] at hm; exact hm.1
      have ht : m.Typ ≠ MetricType.unsupported := by
        simp only [Bool.and_eq_true, decide_eq_true_eq] at hm; exact hm.2
      obtain ⟨r, hr, _⟩ := (finalizeStep_nil env dd m).2.2 ha ht
      rw [hr]
      exact List.Forall₂.cons (hP m r ha ht hr) ih
    · rw [if_neg hm]
      have hskip : finalizeStep env dd [] m = [] := by
        unfold emitsRecord at hm
        by_cases ha : env.IsAcceptableMetric m dd = true
        · have ht : m.Typ = MetricType.unsupported := by simpa [ha] using hm
          exact (finalizeStep_nil env dd m).2.1 ht
        · exact (finalizeStep_nil env dd m).1 (by simpa using ha)
      rw [hskip]
      exact ih

/-- C10 (magic tag exclusion): the emitted records correspond, one to one and in
order, to the samples that yield a record, and the tags of each record are the tags of
the sink, in order, followed by the tags of its own sample without those that have
the prefix "host:" or "device:", in their original order; so no tag after the sink
tags has one of the two prefixes.  On a heap of backing arrays, for any slice `dd.tags`
(spare capacity included) `finalizeMetrics` writes to no array that existed before,
so the array and the elements of the sink's tag list are as before, and the `Tags`
slices of the records show, in the final heap, exactly those tags. -/
theorem C10_magic_tag_exclusion {F : Type} (env : MetricEnv F) (dd : DatadogMetricSink F)
    (metrics : List (InterMetric F)) :
    List.Forall₂
      (fun m r => finalizeStep env dd [] m = [r] ∧ r.Name = m.Name ∧
        r.Tags = dd.tags ++
          m.Tags.filter (fun tag => !HasPrefix tag "host:" && !HasPrefix tag "device:") ∧
        r.Tags.take dd.tags.length = dd.tags ∧
        (∀ tag ∈ r.Tags.drop dd.tags.length,
          HasPrefix tag "host:" = false ∧ HasPrefix tag "device:" = false))
      (metrics.filter (emitsRecord env dd)) (dd.finalizeMetrics env metrics) ∧
    (∀ (spare : Nat → Nat) (h : Heap) (sinkTags : GoSlice),
      sinkTags.ValidIn h → h.read sinkTags = dd.tags →
      (finalizeMetricsHeap spare env dd sinkTags h metrics).1.take h.length = h ∧
      (finalizeMetricsHeap spare env dd sinkTags h metrics).1.array sinkTags.arr =
        h.array sinkTags.arr ∧
      (finalizeMetricsHeap spare env dd sinkTags h metrics).1.read sinkTags = dd.tags ∧
      (finalizeMetricsHeap spare env dd sinkTags h metrics).2.map
          (finalizeMetricsHeap spare env dd sinkTags h metrics).1.read =
        (dd.finalizeMetrics env metrics).map (fun r => r.Tags)) := by
  constructor
  · apply forall₂_records
    intro m r ha ht hr
    obtain ⟨r', hr', hn, _, _, htags, _, _⟩ := (finalizeStep_nil env dd m).2.2 ha ht
    rw [hr] at hr'
    injection hr' with hr' _
    subst hr'
    refine ⟨hr, hn, htags, ?_, ?_⟩
    · rw [htags, List.take_left' rfl]
    · rw [htags, List.drop_left' rfl]
      intro tag htag
      have := (List.mem_filter.mp htag).2
      simpa [plainTag] using this
  · intro spare h sinkTags hv hread
    obtain ⟨h1, news, h2, h3, _⟩ :=
      foldl_finalizeStepHeap spare env dd sinkTags metrics (h, []) hv hread
    have hfront : (finalizeMetricsHeap spare env dd sinkTags h metrics).1.take h.length = h := h1
    have hk : (finalizeMetricsHeap spare env dd sinkTags h metrics).1.take h.length =
        h.take h.length := by rw [hfront, List.take_length]
    refine ⟨hfront, array_of_take h _ h.length sinkTags.arr hk hv.1, ?_, ?_⟩
    · rw [read_of_take h _ h.length sinkTags hk hv.1, hread]
    · have hnews : (finalizeMetricsHeap spare env dd sinkTags h metrics).2 = news := by
        have := h2
        simpa [finalizeMetricsHeap] using this
      rw [hnews, finalizeMetrics_eq]
      exact h3

/-- Witness of C10: sample tags "host:web-1", "device:eth0", "env:prod" leave the tag
"env:prod" after the sink tag; two samples of one name keep each its own tags; and
with the sink tags in an array with spare capacity, the array is as before. -/
theorem C10_magic_tag_exclusion_witness :
    ((sinkWithLimit 400).finalizeMetrics acceptAll [magicSample]).map (fun r => r.Tags)
      = [["cluster:a", "env:prod"]] ∧
    ((sinkWithLimit 400).finalizeMetrics acceptAll sameNameSamples).map
      (fun r => (r.Name, r.Tags))
      = [("requests", ["cluster:a", "env:prod"]), ("requests", ["cluster:a", "env:dev"])] ∧
    sinkTagSlice.ValidIn sinkHeap ∧
    sinkHeap.read sinkTagSlice = (sinkWithLimit 400).tags ∧
    (finalizeMetricsHeap (fun _ => 2) acceptAll (sinkWithLimit 400) sinkTagSlice sinkHeap
      sameNameSamples).1.array 0 = ["cluster:a", "spare-1", "spare-2"] ∧
    (finalizeMetricsHeap (fun _ => 2) acceptAll (sinkWithLimit 400) sinkTagSlice sinkHeap
      sameNameSamples).2.map
        (finalizeMetricsHeap (fun _ => 2) acceptAll (sinkWithLimit 400) sinkTagSlice sinkHeap
          sameNameSamples).1.read
      = [["cluster:a", "env:prod"], ["cluster:a", "env:dev"]] := by
  have hv : sinkTagSlice.ValidIn sinkHeap := ⟨by decide, by decide, by decide⟩
  have hread : sinkHeap.read sinkTagSlice = (sinkWithLimit 400).tags := by decide
  obtain ⟨_, harr, _, htags⟩ :=
    (C10_magic_tag_exclusion acceptAll (sinkWithLimit 400) sameNameSamples).2
      (fun _ => 2) sinkHeap sinkTagSlice hv hread
  refine ⟨by decide, by decide, hv, hread, ?_, ?_⟩
  · rw [show (0 : Nat) = sinkTagSlice.arr from rfl, harr]
    decide
  · rw [htags]
    decide

end Datadog
